import Mathlib

/-!
Verification of the hyperworker installer (`src/install.js`).

The development shallowly embeds the JavaScript source:

* JSON values (`JVal`) model the trees handled by `reverseMerge`
  (JS `undefined` is modelled as absence: an `Option JVal` that is `none`,
  and an assignment `result[key] = undefined` is modelled by omitting the
  key, which is how such a value serializes); `Array.prototype.includes`
  (SameValueZero) is value equality on primitive elements and reference
  equality on object and sequence elements, and the merge's two trees
  never alias each other (they come from separate `JSON.parse` calls, and
  copied subtrees are deep copies), so an object or sequence element of
  the source is never found in the target sequence — `jsIncludes` below;
* the filesystem is a finite association list from paths to byte contents
  (directories appear as entries when only their existence is consulted);
* `process.exit`, thrown errors and blocking on terminal input are the
  abnormal outcomes of each step function; `process.exit` bypasses
  `try/finally`, exactly as in Node.
-/

namespace Hyperworker

/-- A JSON value as produced by `JSON.parse`: null, booleans, numbers,
strings, arrays and plain objects.  Object fields keep their textual
order.  Numbers are modelled as integers: `reverseMerge` only ever
compares them for equality and copies them. -/
inductive JVal where
  | null : JVal
  | bool : Bool → JVal
  | num : Int → JVal
  | str : String → JVal
  | arr : List JVal → JVal
  | obj : List (String × JVal) → JVal

namespace JVal

mutual

/-- Structural equality test.  The nested `List` positions rule out the
`DecidableEq` deriving handler, so the test is a hand-written mutual
group over the value and the two list shapes. -/
def jeq : JVal → JVal → Bool
  | .obj a, .obj b => jeqFields a b
  | .arr a, .arr b => jeqList a b
  | .str a, .str b => a == b
  | .num a, .num b => a == b
  | .bool a, .bool b => a == b
  | .null, .null => true
  | _, _ => false

def jeqList : List JVal → List JVal → Bool
  | [], [] => true
  | x :: xs, y :: ys => jeq x y && jeqList xs ys
  | _, _ => false

def jeqFields : List (String × JVal) → List (String × JVal) → Bool
  | [], [] => true
  | p :: xs, q :: ys => p.1 == q.1 && jeq p.2 q.2 && jeqFields xs ys
  | _, _ => false

end

end JVal

theorem sizeOf_lt_of_entry_obj {a : String} {v : JVal} {o : List (String × JVal)}
    (h : (a, v) ∈ o) : sizeOf v < sizeOf (JVal.obj o) := by
  have h1 := List.sizeOf_lt_of_mem h
  simp only [JVal.obj.sizeOf_spec]
  simp only [Prod.mk.sizeOf_spec] at h1
  omega

theorem sizeOf_lt_of_mem_arr {v : JVal} {l : List JVal}
    (h : v ∈ l) : sizeOf v < sizeOf (JVal.arr l) := by
  have h1 := List.sizeOf_lt_of_mem h
  simp only [JVal.arr.sizeOf_spec]
  omega

/-- `jeqList` decides list equality once each left element's test decides
equality. -/
theorem JVal.jeqList_iff (l m : List JVal)
    (h : ∀ x ∈ l, ∀ y : JVal, jeq x y = true ↔ x = y) :
    jeqList l m = true ↔ l = m := by
  induction l generalizing m with
  | nil => cases m <;> simp [jeqList]
  | cons x xs ih =>
    cases m with
    | nil => simp [jeqList]
    | cons y ys =>
      rw [jeqList]
      rw [Bool.and_eq_true, h x (by simp) y,
        ih _ (fun z hz => h z (List.mem_cons_of_mem _ hz))]
      simp

/-- `jeqFields` decides field-list equality once each left value's test
decides equality. -/
theorem JVal.jeqFields_iff (l m : List (String × JVal))
    (h : ∀ e ∈ l, ∀ w : JVal, jeq e.2 w = true ↔ e.2 = w) :
    jeqFields l m = true ↔ l = m := by
  induction l generalizing m with
  | nil => cases m <;> simp [jeqFields]
  | cons p xs ih =>
    cases m with
    | nil => simp [jeqFields]
    | cons q ys =>
      rw [jeqFields]
      rw [Bool.and_eq_true, Bool.and_eq_true, h p (by simp) q.2,
        ih _ (fun e he w => h e (List.mem_cons_of_mem _ he) w)]
      rw [show (p.1 == q.1) = true ↔ p.1 = q.1 from beq_iff_eq]
      constructor
      · rintro ⟨⟨h1, h2⟩, h3⟩
        rw [Prod.ext_iff.mpr ⟨h1, h2⟩, h3]
      · rintro h0
        obtain ⟨h1, h2⟩ := List.cons.injEq .. ▸ h0
        exact ⟨⟨congrArg Prod.fst h1, congrArg Prod.snd h1⟩, h2⟩

/-- `jeq` is structural equality, by strong recursion over the left
value (the two list lemmas consume the pointwise fact). -/
theorem JVal.jeq_iff_eq (a b : JVal) : jeq a b = true ↔ a = b := by
  cases a with
  | null => cases b <;> simp [jeq]
  | bool x => cases b <;> simp [jeq]
  | num x => cases b <;> simp [jeq]
  | str x => cases b <;> simp [jeq]
  | arr l =>
    cases b with
    | arr m =>
      rw [show jeq (.arr l) (.arr m) = jeqList l m from rfl]
      rw [JVal.jeqList_iff l m (fun x hx y => JVal.jeq_iff_eq x y)]
      simp
    | null => simp [jeq]
    | bool y => simp [jeq]
    | num y => simp [jeq]
    | str y => simp [jeq]
    | obj o2 => simp [jeq]
  | obj o =>
    cases b with
    | obj o2 =>
      rw [show jeq (.obj o) (.obj o2) = jeqFields o o2 from rfl]
      rw [JVal.jeqFields_iff o o2 (fun e he w => JVal.jeq_iff_eq e.2 w)]
      simp
    | null => simp [jeq]
    | bool y => simp [jeq]
    | num y => simp [jeq]
    | str y => simp [jeq]
    | arr m => simp [jeq]
termination_by sizeOf a
decreasing_by
  · exact sizeOf_lt_of_mem_arr hx
  · exact sizeOf_lt_of_entry_obj (a := e.1) (v := e.2) he

instance : DecidableEq JVal := fun a b => decidable_of_iff _ (JVal.jeq_iff_eq a b)

/-- `isPlainObject` from `install.js`: non-null, of object type, and not an
array — on JSON values exactly the `obj` constructor. -/
def isPlainObject : JVal → Bool
  | .obj _ => true
  | _ => false

/-- `Array.isArray`. -/
def isArray : JVal → Bool
  | .arr _ => true
  | _ => false

/-- Is the value a JS primitive (null, boolean, number or string)? -/
def isPrimitive : JVal → Bool
  | .null => true
  | .bool _ => true
  | .num _ => true
  | .str _ => true
  | _ => false

/-- `tVal.includes(v)` — `Array.prototype.includes`, i.e. SameValueZero —
between arrays that share no references, which is the merge's situation:
target and source trees come from separate `JSON.parse` calls, and every
copied subtree is a deep copy.  A primitive element is found exactly when
a structurally equal element is present; an object or sequence element is
compared by reference and, unaliased, is never found. -/
def jsIncludes (ta : List JVal) (v : JVal) : Bool :=
  isPrimitive v && decide (v ∈ ta)

/-- The own enumerable properties of a value, as `Object.keys` and property
access see them: an object yields its fields, an array yields its elements
under their decimal index strings, a string yields its characters under
their index strings, and primitives yield nothing.  (Non-enumerable
properties such as `length` and inherited properties are outside the JSON
value model.) -/
def jsEntries : JVal → List (String × JVal)
  | .obj o => o
  | .arr l => l.enum.map (fun p => (toString p.1, p.2))
  | .str s => s.toList.enum.map (fun p => (toString p.1, JVal.str (String.mk [p.2])))
  | _ => []

/-- `Object.keys`. -/
def jsKeys (v : JVal) : List String :=
  (jsEntries v).map Prod.fst

/-- Property access `v[k]`; `none` models JS `undefined`. -/
def jsGet (v : JVal) (k : String) : Option JVal :=
  List.lookup k (jsEntries v)

/-- First-occurrence deduplication, the iteration order of a JS `Set` built
from the spread of two key lists. -/
def dedupFirst (l : List String) : List String :=
  l.foldl (fun acc k => if k ∈ acc then acc else acc ++ [k]) []

/-- `new Set([...Object.keys(target), ...Object.keys(source)])`, in
iteration order. -/
def allKeys (t s : JVal) : List String :=
  dedupFirst (jsKeys t ++ jsKeys s)

theorem lookup_exists_key {α β : Type} [DecidableEq α] {k : α} {l : List (α × β)} {v : β}
    (h : List.lookup k l = some v) : ∃ a, (a, v) ∈ l := by
  induction l with
  | nil => simp [List.lookup] at h
  | cons e rest ih =>
    rw [List.lookup] at h
    by_cases hk : k == e.1
    · simp [hk] at h
      exact ⟨e.1, by simp [← h]⟩
    · simp [hk] at h
      obtain ⟨a, ha⟩ := ih h
      exact ⟨a, List.mem_cons_of_mem _ ha⟩

theorem jsGet_obj_sizeOf {t : JVal} {k : String} {o : List (String × JVal)}
    (h : jsGet t k = some (.obj o)) : sizeOf (JVal.obj o) < sizeOf t := by
  cases t with
  | obj to2 =>
    obtain ⟨a, ha⟩ := lookup_exists_key (by simpa [jsGet, jsEntries] using h)
    exact sizeOf_lt_of_entry_obj ha
  | arr tl =>
    obtain ⟨a, ha⟩ := lookup_exists_key (by simpa [jsGet, jsEntries] using h)
    have hv : JVal.obj o ∈ tl := by
      obtain ⟨p, hp, hpe⟩ := List.mem_map.mp ha
      have : p.2 = JVal.obj o := congrArg Prod.snd hpe
      have hsnd : JVal.obj o ∈ tl.enum.map Prod.snd := by
        exact List.mem_map.mpr ⟨p, hp, this⟩
      simpa [List.enum_map_snd] using hsnd
    exact sizeOf_lt_of_mem_arr hv
  | str s =>
    exfalso
    obtain ⟨a, ha⟩ := lookup_exists_key (by simpa [jsGet, jsEntries] using h)
    obtain ⟨p, _, hpe⟩ := List.mem_map.mp ha
    exact absurd (congrArg Prod.snd hpe) (by simp)
  | null => simp [jsGet, jsEntries] at h
  | bool b => simp [jsGet, jsEntries] at h
  | num n => simp [jsGet, jsEntries] at h

/-- `reverseMerge(target, source)` from `install.js`, translated key for
key.  Deep copies (`JSON.parse(JSON.stringify(v))`) are the identity on
JSON values.  `Array.prototype.includes` is `jsIncludes`: SameValueZero
between unaliased trees, i.e. value equality on primitive elements and
always-false on object and sequence elements (those compare by reference,
and the merge's trees never alias each other, coming from separate
`JSON.parse` calls and deep copies).  The assignment `result[key] = undefined`
(reached when the target value is null and the source has no value) is
modelled by omitting the key. -/
def reverseMerge (t s : JVal) : JVal :=
  if t = .null ∧ s = .null then .obj []
  else if t = .null then s
  else if s = .null then t
  else
    .obj ((allKeys t s).filterMap (fun k =>
      (match h1 : jsGet t k, h2 : jsGet s k with
       | some (JVal.arr ta), some (JVal.arr sa) =>
           some (JVal.arr (ta ++ sa.filter (fun v => !jsIncludes ta v)))
       | some (JVal.obj to2), some (JVal.obj so2) =>
           some (reverseMerge (JVal.obj to2) (JVal.obj so2))
       | some tv, sv => if tv = JVal.null then sv else some tv
       | none, sv => sv
      ).map (fun v => (k, v))))
termination_by sizeOf t + sizeOf s
decreasing_by
  have ht := jsGet_obj_sizeOf h1
  have hs := jsGet_obj_sizeOf h2
  omega

/-- The per-key dispatch of `reverseMerge` (the body of its `for` loop),
as a standalone function: sequence union when both values are arrays,
recursion when both are plain objects, otherwise the target value when it
is defined and non-null, otherwise the source value (with `undefined`
rendered as `none`). -/
def mergeStep (tv sv : Option JVal) : Option JVal :=
  match tv, sv with
  | some (JVal.arr ta), some (JVal.arr sa) =>
      some (JVal.arr (ta ++ sa.filter (fun v => !jsIncludes ta v)))
  | some (JVal.obj to2), some (JVal.obj so2) =>
      some (reverseMerge (JVal.obj to2) (JVal.obj so2))
  | some tv', sv' => if tv' = JVal.null then sv' else some tv'
  | none, sv' => sv'

theorem reverseMerge_eq_obj (t s : JVal) (ht : t ≠ .null) (hs : s ≠ .null) :
    reverseMerge t s =
      .obj ((allKeys t s).filterMap (fun k =>
        (mergeStep (jsGet t k) (jsGet s k)).map (fun v => (k, v)))) := by
  rw [reverseMerge]
  rw [if_neg (by tauto), if_neg ht, if_neg hs]
  congr 1
  apply List.filterMap_congr
  intro k _
  congr 1
  cases h1 : jsGet t k with
  | none => cases h2 : jsGet s k <;> rfl
  | some tv =>
    cases h2 : jsGet s k with
    | none => cases tv <;> rfl
    | some sv => cases tv <;> cases sv <;> rfl

theorem lookup_some_mem_keys {α β : Type} [DecidableEq α] {k : α} {l : List (α × β)} {v : β}
    (h : List.lookup k l = some v) : k ∈ l.map Prod.fst := by
  induction l with
  | nil => simp [List.lookup] at h
  | cons e rest ih =>
    rw [List.lookup] at h
    by_cases hk : k == e.1
    · simp at hk
      simp [hk]
    · simp [hk] at h
      simp [ih h]

theorem lookup_none_iff {α β : Type} [DecidableEq α] {k : α} {l : List (α × β)} :
    List.lookup k l = none ↔ k ∉ l.map Prod.fst := by
  induction l with
  | nil => simp [List.lookup]
  | cons e rest ih =>
    rw [List.lookup]
    by_cases hk : k == e.1
    · simp at hk
      simp [hk]
    · simp at hk
      simp [hk, ih, beq_false_of_ne hk]

theorem lookup_filterMap {k : String} {l : List String} {f : String → Option JVal}
    (hnd : l.Nodup) :
    List.lookup k (l.filterMap (fun x => (f x).map (fun v => (x, v)))) =
      if k ∈ l then f k else none := by
  induction l with
  | nil => simp [List.lookup]
  | cons a t ih =>
    have hnd' : t.Nodup := hnd.of_cons
    cases hfa : f a with
    | none =>
      rw [List.filterMap_cons]
      simp only [hfa, Option.map_none']
      rw [ih hnd']
      by_cases hk : k = a
      · subst hk
        have : k ∉ t := by simpa using hnd.not_mem
        simp [this, hfa]
      · simp [hk, List.mem_cons]
    | some v =>
      rw [List.filterMap_cons]
      simp only [hfa, Option.map_some']
      rw [List.lookup]
      by_cases hk : k = a
      · subst hk
        simp [hfa]
      · simp only [beq_false_of_ne hk, ih hnd']
        simp [hk, List.mem_cons]

/-! Facts about `dedupFirst` (the `Set` construction). -/

theorem dedupFirst_go_mem (l : List String) :
    ∀ (acc : List String) (k : String),
      k ∈ l.foldl (fun acc k => if k ∈ acc then acc else acc ++ [k]) acc ↔ k ∈ acc ∨ k ∈ l := by
  induction l with
  | nil => simp
  | cons a t ih =>
    intro acc k
    rw [List.foldl_cons, ih]
    by_cases ha : a ∈ acc
    · simp only [if_pos ha]
      constructor
      · rintro (h | h)
        · exact Or.inl h
        · exact Or.inr (List.mem_cons_of_mem _ h)
      · rintro (h | h)
        · exact Or.inl h
        · rcases List.mem_cons.mp h with rfl | h
          · exact Or.inl ha
          · exact Or.inr h
    · simp only [if_neg ha, List.mem_append, List.mem_singleton, List.mem_cons]
      tauto

theorem dedupFirst_go_nodup (l : List String) :
    ∀ (acc : List String), acc.Nodup →
      (l.foldl (fun acc k => if k ∈ acc then acc else acc ++ [k]) acc).Nodup := by
  induction l with
  | nil => simpa
  | cons a t ih =>
    intro acc hacc
    rw [List.foldl_cons]
    by_cases ha : a ∈ acc
    · simpa [if_pos ha] using ih acc hacc
    · refine ih _ ?_
      simp [if_neg ha, List.nodup_append, hacc, ha]

theorem dedupFirst_go_covered (l : List String) :
    ∀ (acc : List String), (∀ k ∈ l, k ∈ acc) →
      l.foldl (fun acc k => if k ∈ acc then acc else acc ++ [k]) acc = acc := by
  induction l with
  | nil => intro acc _; rfl
  | cons a t ih =>
    intro acc hcov
    rw [List.foldl_cons, if_pos (hcov a (by simp))]
    exact ih acc (fun k hk => hcov k (List.mem_cons_of_mem _ hk))

theorem dedupFirst_go_fresh (l : List String) :
    ∀ (acc : List String), l.Nodup → (∀ k ∈ l, k ∉ acc) →
      l.foldl (fun acc k => if k ∈ acc then acc else acc ++ [k]) acc = acc ++ l := by
  induction l with
  | nil => simp
  | cons a t ih =>
    intro acc hnd hfr
    rw [List.foldl_cons, if_neg (hfr a (by simp))]
    rw [ih _ hnd.of_cons]
    · simp
    · intro k hk
      simp only [List.mem_append, List.mem_singleton]
      rintro (h | rfl)
      · exact hfr k (List.mem_cons_of_mem _ hk) h
      · exact (List.nodup_cons.mp hnd).1 hk

theorem mem_dedupFirst {k : String} {l : List String} : k ∈ dedupFirst l ↔ k ∈ l := by
  rw [dedupFirst, dedupFirst_go_mem]
  simp

theorem dedupFirst_nodup (l : List String) : (dedupFirst l).Nodup :=
  dedupFirst_go_nodup l [] List.nodup_nil

theorem dedupFirst_eq_self {l : List String} (h : l.Nodup) : dedupFirst l = l := by
  rw [dedupFirst, dedupFirst_go_fresh l [] h (by simp)]
  simp

theorem dedupFirst_append_covered {l l' : List String} (hnd : l.Nodup)
    (hcov : ∀ k ∈ l', k ∈ l) : dedupFirst (l ++ l') = l := by
  rw [dedupFirst, List.foldl_append]
  have h1 : l.foldl (fun acc k => if k ∈ acc then acc else acc ++ [k]) [] = l := by
    rw [dedupFirst_go_fresh l [] hnd (by simp)]; simp
  rw [h1, dedupFirst_go_covered l' l hcov]

theorem allKeys_nodup (t s : JVal) : (allKeys t s).Nodup :=
  dedupFirst_nodup _

theorem mem_allKeys {k : String} {t s : JVal} :
    k ∈ allKeys t s ↔ k ∈ jsKeys t ∨ k ∈ jsKeys s := by
  rw [allKeys, mem_dedupFirst, List.mem_append]

/-- The value of the merge at a key, for non-null inputs: the lookup in the
result is exactly the per-key dispatch applied to the two lookups. -/
theorem reverseMerge_jsGet (t s : JVal) (ht : t ≠ .null) (hs : s ≠ .null) (k : String) :
    jsGet (reverseMerge t s) k = mergeStep (jsGet t k) (jsGet s k) := by
  rw [reverseMerge_eq_obj t s ht hs]
  have hobj : ∀ (L : List (String × JVal)), jsGet (.obj L) k = List.lookup k L :=
    fun _ => rfl
  rw [hobj, lookup_filterMap (allKeys_nodup t s)]
  by_cases hk : k ∈ allKeys t s
  · simp [hk]
  · rw [if_neg hk]
    have ht0 : jsGet t k = none := by
      have : k ∉ (jsEntries t).map Prod.fst := fun hmem =>
        hk (mem_allKeys.mpr (Or.inl hmem))
      exact lookup_none_iff.mpr this
    have hs0 : jsGet s k = none := by
      have : k ∉ (jsEntries s).map Prod.fst := fun hmem =>
        hk (mem_allKeys.mpr (Or.inr hmem))
      exact lookup_none_iff.mpr this
    rw [ht0, hs0]
    rfl

theorem reverseMerge_null_null : reverseMerge .null .null = .obj [] := by
  rw [reverseMerge]
  simp

theorem reverseMerge_null_left {s : JVal} (hs : s ≠ .null) :
    reverseMerge .null s = s := by
  rw [reverseMerge]
  simp [hs]

theorem reverseMerge_null_right {t : JVal} (ht : t ≠ .null) :
    reverseMerge t .null = t := by
  rw [reverseMerge]
  simp [ht]

theorem jsGet_ne_null {t : JVal} {k : String} {v : JVal}
    (h : jsGet t k = some v) : t ≠ .null := by
  intro ht
  subst ht
  simp [jsGet, jsEntries, List.lookup] at h

/-- The per-key dispatch keeps a defined, non-null target value whenever
neither the sequence-union case nor the mapping-recursion case applies. -/
theorem mergeStep_keep (v : JVal) (sv : Option JVal) (hnn : v ≠ .null)
    (harr : ∀ ta sa, v = .arr ta → sv ≠ some (.arr sa))
    (hobj : ∀ a b, v = .obj a → sv ≠ some (.obj b)) :
    mergeStep (some v) sv = some v := by
  cases v with
  | null => exact absurd rfl hnn
  | bool b => rcases sv with _ | sv2 <;> first | rfl | (cases sv2 <;> rfl)
  | num n => rcases sv with _ | sv2 <;> first | rfl | (cases sv2 <;> rfl)
  | str s => rcases sv with _ | sv2 <;> first | rfl | (cases sv2 <;> rfl)
  | arr ta =>
    rcases sv with _ | sv2
    · rfl
    · cases sv2 with
      | arr sa => exact absurd rfl (harr ta sa rfl)
      | null => rfl
      | bool b => rfl
      | num n => rfl
      | str s => rfl
      | obj o => rfl
  | obj to2 =>
    rcases sv with _ | sv2
    · rfl
    · cases sv2 with
      | obj so2 => exact absurd rfl (hobj to2 so2 rfl)
      | null => rfl
      | bool b => rfl
      | num n => rfl
      | str s => rfl
      | arr l => rfl

/-- Claim C1: target priority.  For every pair of trees and every key whose
value in the target is defined and non-null, if the source's value at that
key does not put the pair into the sequence-union or mapping-recursion
case, the merge maps that key to exactly the target's value. -/
theorem reverseMerge_target_priority (t s : JVal) (k : String) (v : JVal)
    (hv : jsGet t k = some v) (hnn : v ≠ .null)
    (harr : ∀ ta sa, v = .arr ta → jsGet s k ≠ some (.arr sa))
    (hobj : ∀ a b, v = .obj a → jsGet s k ≠ some (.obj b)) :
    jsGet (reverseMerge t s) k = some v := by
  have ht : t ≠ .null := jsGet_ne_null hv
  by_cases hs : s = .null
  · subst hs
    rw [reverseMerge_null_right ht]
    exact hv
  · rw [reverseMerge_jsGet t s ht hs, hv]
    exact mergeStep_keep v (jsGet s k) hnn harr hobj

/-- Claim C1 witness: a non-null scalar in the target survives the merge
even though the source holds a sequence at the same key. -/
theorem reverseMerge_target_priority_witness :
    jsGet (reverseMerge (.obj [("k", .num 7)]) (.obj [("k", .arr [.num 1])])) "k"
      = some (.num 7) :=
  reverseMerge_target_priority (.obj [("k", .num 7)]) (.obj [("k", .arr [.num 1])])
    "k" (.num 7) (by decide) (by decide)
    (fun ta sa h => JVal.noConfusion h)
    (fun a b h => JVal.noConfusion h)

/-- Claim C2 counterexample: the claimed union — membership decided by
exact equality — is false for object elements.  `includes` compares them
by reference, and the two parsed trees share no references, so
`merge({a:[{x:1}]}, {a:[{x:1}]})` is `{a:[{x:1},{x:1}]}` — NOT the
claimed set union `{a:[{x:1}]}` (the structurally-present element filtered
out, as the second conjunct's exact-equality filter would have it). -/
theorem reverseMerge_array_union_counterexample :
    jsGet (reverseMerge
        (.obj [("a", .arr [.obj [("x", .num 1)]])])
        (.obj [("a", .arr [.obj [("x", .num 1)]])])) "a"
      = some (.arr [.obj [("x", .num 1)], .obj [("x", .num 1)]]) ∧
    some (JVal.arr [.obj [("x", .num 1)], .obj [("x", .num 1)]])
      ≠ some (JVal.arr ([JVal.obj [("x", .num 1)]] ++
          ([JVal.obj [("x", .num 1)]].filter
            (fun v => !decide (v ∈ [JVal.obj [("x", .num 1)]]))))) := by
  constructor
  · rw [reverseMerge_eq_obj _ _ (by decide) (by decide)]
    decide
  · decide

/-- Claim C2 (amended): array union.  At a key where both trees hold
sequences, the merge yields the target's sequence followed by exactly
those source elements that `includes` does not find in the target's
sequence — value equality for primitive elements, never found for object
and sequence elements (compared by reference across unaliased trees) —
keeping the source's relative order among appended elements. -/
theorem reverseMerge_array_union (t s : JVal) (k : String) (ta sa : List JVal)
    (ht : jsGet t k = some (.arr ta)) (hs : jsGet s k = some (.arr sa)) :
    jsGet (reverseMerge t s) k
      = some (.arr (ta ++ sa.filter (fun v => !jsIncludes ta v))) := by
  have ht0 : t ≠ .null := jsGet_ne_null ht
  have hs0 : s ≠ .null := jsGet_ne_null hs
  rw [reverseMerge_jsGet t s ht0 hs0, ht, hs]
  rfl

/-- Claim C2 witness: `merge({a:[1,2]}, {a:[2,3]}) = {a:[1,2,3]}`. -/
theorem reverseMerge_array_union_witness :
    reverseMerge (.obj [("a", .arr [.num 1, .num 2])]) (.obj [("a", .arr [.num 2, .num 3])])
      = .obj [("a", .arr [.num 1, .num 2, .num 3])] ∧
    jsGet (reverseMerge (.obj [("a", .arr [.num 1, .num 2])])
        (.obj [("a", .arr [.num 2, .num 3])])) "a"
      = some (.arr [.num 1, .num 2, .num 3]) := by
  constructor
  · rw [reverseMerge_eq_obj _ _ (by decide) (by decide)]
    decide
  · rw [reverseMerge_array_union (.obj [("a", .arr [.num 1, .num 2])])
      (.obj [("a", .arr [.num 2, .num 3])]) "a" [.num 1, .num 2] [.num 2, .num 3]
      (by decide) (by decide)]
    decide

/-- Claim C10: for non-null inputs the merge always returns a mapping at
the top level; two top-level sequences collapse into an index-keyed
mapping rather than a set union, and a non-null scalar target merged with
a mapping source yields a mapping. -/
theorem reverseMerge_top_level_shape :
    (∀ t s : JVal, t ≠ .null → s ≠ .null → isPlainObject (reverseMerge t s) = true) ∧
    reverseMerge (.arr [.num 1, .num 2]) (.arr [.num 2, .num 3])
      = .obj [("0", .num 1), ("1", .num 2)] ∧
    reverseMerge (.num 5) (.obj [("a", .num 1)]) = .obj [("a", .num 1)] := by
  refine ⟨fun t s ht hs => ?_, ?_, ?_⟩
  · rw [reverseMerge_eq_obj t s ht hs]
    rfl
  · rw [reverseMerge_eq_obj _ _ (by decide) (by decide)]
    decide
  · rw [reverseMerge_eq_obj _ _ (by decide) (by decide)]
    decide

/-- Claim C10 witness: the general mapping-shape clause at a pair of
scalars. -/
theorem reverseMerge_top_level_shape_witness :
    isPlainObject (reverseMerge (.num 1) (.bool true)) = true :=
  reverseMerge_top_level_shape.1 (.num 1) (.bool true) (by decide) (by decide)

mutual

/-- Well-formedness of a JSON value as JavaScript can represent it: every
object along the tree has pairwise-distinct keys.  (A JS object cannot
hold the same key twice; the association-list model is wider.) -/
def wf : JVal → Bool
  | .arr l => wfList l
  | .obj o => decide ((o.map Prod.fst).Nodup) && wfFields o
  | _ => true

def wfList : List JVal → Bool
  | [] => true
  | x :: xs => wf x && wfList xs

def wfFields : List (String × JVal) → Bool
  | [] => true
  | (_, v) :: xs => wf v && wfFields xs

end

theorem wf_obj_nodup {o : List (String × JVal)} (h : wf (.obj o) = true) :
    (o.map Prod.fst).Nodup := by
  rw [wf] at h
  exact of_decide_eq_true (Bool.and_elim_left h)

theorem wfFields_mem : ∀ {o : List (String × JVal)} {k : String} {v : JVal},
    wfFields o = true → (k, v) ∈ o → wf v = true := by
  intro o
  induction o with
  | nil => intro k v _ hm; simp at hm
  | cons e t ih =>
    intro k v hw hm
    obtain ⟨k0, v0⟩ := e
    rw [wfFields] at hw
    rcases List.mem_cons.mp hm with h | h
    · cases h
      exact Bool.and_elim_left hw
    · exact ih (Bool.and_elim_right hw) h

theorem wfList_mem : ∀ {l : List JVal} {v : JVal},
    wfList l = true → v ∈ l → wf v = true := by
  intro l
  induction l with
  | nil => intro v _ hm; simp at hm
  | cons x xs ih =>
    intro v hw hm
    rw [wfList] at hw
    rcases List.mem_cons.mp hm with rfl | h
    · exact Bool.and_elim_left hw
    · exact ih (Bool.and_elim_right hw) h

theorem jsGet_arr_mem {l : List JVal} {k : String} {v : JVal}
    (h : jsGet (.arr l) k = some v) : v ∈ l := by
  obtain ⟨a, ha⟩ := lookup_exists_key (by simpa [jsGet, jsEntries] using h)
  obtain ⟨p, hp, hpe⟩ := List.mem_map.mp ha
  have hv : p.2 = v := congrArg Prod.snd hpe
  have : v ∈ l.enum.map Prod.snd := List.mem_map.mpr ⟨p, hp, hv⟩
  simpa [List.enum_map_snd] using this

theorem wf_jsGet {s : JVal} {k : String} {v : JVal}
    (hwf : wf s = true) (h : jsGet s k = some v) : wf v = true := by
  cases s with
  | obj o =>
    obtain ⟨a, ha⟩ := lookup_exists_key (by simpa [jsGet, jsEntries] using h)
    rw [wf] at hwf
    exact wfFields_mem (Bool.and_elim_right hwf) ha
  | arr l =>
    rw [wf] at hwf
    exact wfList_mem hwf (jsGet_arr_mem h)
  | str s0 =>
    obtain ⟨a, ha⟩ := lookup_exists_key (by simpa [jsGet, jsEntries] using h)
    obtain ⟨p, _, hpe⟩ := List.mem_map.mp ha
    have hv : JVal.str (String.mk [p.2]) = v := congrArg Prod.snd hpe
    rw [← hv]
    rfl
  | null => simp [jsGet, jsEntries, List.lookup] at h
  | bool b => simp [jsGet, jsEntries, List.lookup] at h
  | num n => simp [jsGet, jsEntries, List.lookup] at h

mutual

/-- Every sequence occurring anywhere in the tree holds only primitive
(null, boolean, number, string) elements.  On this fragment the value
model of `includes` coincides with the reference semantics: value and
reference equality agree on primitives. -/
def scalarArrays : JVal → Bool
  | .arr l => l.all (fun v => isPrimitive v)
  | .obj o => scalarFields o
  | _ => true

def scalarFields : List (String × JVal) → Bool
  | [] => true
  | (_, v) :: xs => scalarArrays v && scalarFields xs

end

theorem scalarFields_mem : ∀ {o : List (String × JVal)} {k : String} {v : JVal},
    scalarFields o = true → (k, v) ∈ o → scalarArrays v = true := by
  intro o
  induction o with
  | nil => intro k v _ hm; simp at hm
  | cons e t ih =>
    intro k v hw hm
    obtain ⟨k0, v0⟩ := e
    rw [scalarFields] at hw
    rcases List.mem_cons.mp hm with h | h
    · cases h
      exact Bool.and_elim_left hw
    · exact ih (Bool.and_elim_right hw) h

theorem isPrimitive_scalarArrays {v : JVal} (h : isPrimitive v = true) :
    scalarArrays v = true := by
  cases v with
  | null => rfl
  | bool b => rfl
  | num n => rfl
  | str s0 => rfl
  | arr l => exact absurd h (by simp [isPrimitive])
  | obj o => exact absurd h (by simp [isPrimitive])

theorem scalarArrays_jsGet {s : JVal} {k : String} {v : JVal}
    (hsc : scalarArrays s = true) (h : jsGet s k = some v) : scalarArrays v = true := by
  cases s with
  | obj o =>
    obtain ⟨a, ha⟩ := lookup_exists_key (by simpa [jsGet, jsEntries] using h)
    rw [scalarArrays] at hsc
    exact scalarFields_mem hsc ha
  | arr l =>
    rw [scalarArrays] at hsc
    exact isPrimitive_scalarArrays (List.all_eq_true.mp hsc v (jsGet_arr_mem h))
  | str s0 =>
    obtain ⟨a, ha⟩ := lookup_exists_key (by simpa [jsGet, jsEntries] using h)
    obtain ⟨p, _, hpe⟩ := List.mem_map.mp ha
    have hv : JVal.str (String.mk [p.2]) = v := congrArg Prod.snd hpe
    rw [← hv]
    rfl
  | null => simp [jsGet, jsEntries, List.lookup] at h
  | bool b => simp [jsGet, jsEntries, List.lookup] at h
  | num n => simp [jsGet, jsEntries, List.lookup] at h

theorem map_fst_filterMap (l : List String) (f : String → Option JVal) :
    (l.filterMap (fun k => (f k).map (fun v => (k, v)))).map Prod.fst
      = l.filter (fun k => (f k).isSome) := by
  induction l with
  | nil => rfl
  | cons a t ih =>
    cases hfa : f a <;>
      simp [List.filterMap_cons, hfa, List.filter_cons, ih]

theorem filterMap_keys_reconstruct (o : List (String × JVal))
    (g : String → Option JVal)
    (hnd : (o.map Prod.fst).Nodup)
    (hg : ∀ k v, List.lookup k o = some v → g k = some v) :
    (o.map Prod.fst).filterMap (fun k => (g k).map (fun v => (k, v))) = o := by
  induction o with
  | nil => rfl
  | cons e t ih =>
    obtain ⟨k0, v0⟩ := e
    simp only [List.map_cons, List.filterMap_cons]
    have h0 : g k0 = some v0 := hg k0 v0 (by rw [List.lookup]; simp)
    rw [h0]
    simp only [Option.map_some']
    have hnd' : (t.map Prod.fst).Nodup := hnd.of_cons
    have hk0 : k0 ∉ t.map Prod.fst := by simpa using (List.nodup_cons.mp hnd).1
    congr 1
    refine ih hnd' ?_
    intro k v hkv
    refine hg k v ?_
    have hne : k ≠ k0 := by
      intro h
      exact hk0 (h ▸ lookup_some_mem_keys hkv)
    rw [List.lookup, beq_false_of_ne hne]
    exact hkv

theorem filter_isSome_filterMap (l : List String)
    (f g : String → Option JVal)
    (h : ∀ a ∈ l, ∀ u, f a = some u → g a = some u) :
    (l.filter (fun a => (f a).isSome)).filterMap (fun k => (g k).map (fun v => (k, v)))
      = l.filterMap (fun k => (f k).map (fun v => (k, v))) := by
  induction l with
  | nil => rfl
  | cons a t ih =>
    have ht : ∀ a ∈ t, ∀ u, f a = some u → g a = some u :=
      fun x hx => h x (List.mem_cons_of_mem _ hx)
    cases hfa : f a with
    | none =>
      simp only [List.filter_cons, hfa, Option.isSome_none, Bool.false_eq_true,
        if_false, List.filterMap_cons, Option.map_none']
      exact ih ht
    | some u =>
      have hga := h a (by simp) u hfa
      simp only [List.filter_cons, hfa, Option.isSome_some, if_true,
        List.filterMap_cons, hga, Option.map_some']
      rw [ih ht]

theorem filter_includes_self (sa : List JVal)
    (hp : sa.all (fun v => isPrimitive v) = true) :
    sa.filter (fun v => !jsIncludes sa v) = [] := by
  rw [List.filter_eq_nil]
  intro a ha
  have hpa : isPrimitive a = true := List.all_eq_true.mp hp a ha
  simp [jsIncludes, hpa, ha]

theorem filter_includes_union (ta sa : List JVal)
    (hp : sa.all (fun v => isPrimitive v) = true) :
    sa.filter (fun v => !jsIncludes (ta ++ sa.filter (fun v => !jsIncludes ta v)) v) = [] := by
  rw [List.filter_eq_nil]
  intro a ha
  have hpa : isPrimitive a = true := List.all_eq_true.mp hp a ha
  have hmem : a ∈ ta ++ sa.filter (fun v => !jsIncludes ta v) := by
    by_cases hta : a ∈ ta
    · exact List.mem_append_left _ hta
    · refine List.mem_append_right _ (List.mem_filter.mpr ⟨ha, ?_⟩)
      simp [jsIncludes, hpa, hta]
  have hinc : jsIncludes (ta ++ sa.filter (fun v => !jsIncludes ta v)) a = true := by
    rw [jsIncludes, hpa, Bool.true_and]
    exact decide_eq_true hmem
  simp [hinc]

/-- Re-merging an equal, well-formed object into itself is the identity:
`reverseMerge(o, o) = o` whenever `o` is a JS-representable object whose
sequences hold only primitive elements (an object or sequence element of
a sequence would be re-appended: `includes` compares it by reference with
the deep copy and never finds it). -/
theorem reverseMerge_self_obj (o : List (String × JVal)) (hwf : wf (.obj o) = true)
    (hsc : scalarArrays (.obj o) = true) :
    reverseMerge (.obj o) (.obj o) = .obj o := by
  have hne : (JVal.obj o) ≠ .null := fun h => JVal.noConfusion h
  rw [reverseMerge_eq_obj _ _ hne hne]
  have hnd : (o.map Prod.fst).Nodup := wf_obj_nodup hwf
  have hkeys : allKeys (.obj o) (.obj o) = o.map Prod.fst := by
    rw [allKeys]
    exact dedupFirst_append_covered hnd (fun k hk => hk)
  rw [hkeys]
  congr 1
  refine filterMap_keys_reconstruct o _ hnd ?_
  intro k v hkv
  have hget : jsGet (.obj o) k = some v := hkv
  rw [hget]
  have hwfv : wf v = true := wf_jsGet hwf hget
  have hscv : scalarArrays v = true := scalarArrays_jsGet hsc hget
  cases v with
  | null => rfl
  | bool b => rfl
  | num n => rfl
  | str s => rfl
  | arr l =>
    rw [scalarArrays] at hscv
    show some (JVal.arr (l ++ l.filter (fun v => !jsIncludes l v))) = _
    rw [filter_includes_self l hscv, List.append_nil]
  | obj o2 =>
    show some (reverseMerge (.obj o2) (.obj o2)) = _
    rw [reverseMerge_self_obj o2 hwfv hscv]
termination_by sizeOf (JVal.obj o)
decreasing_by
  obtain ⟨a, ha⟩ := lookup_exists_key hkv
  exact sizeOf_lt_of_entry_obj ha

/-- Claim C3 (amended): idempotence of the reverse merge,
`merge(merge(T,S), S) = merge(T,S)`, for every JS-representable source
tree `S` whose sequences (at any depth) hold only primitive elements,
except in the corner where `T` is null and `S` is a non-null scalar or
sequence (there `merge(T,S)` is a deep copy of `S` itself and a second
merge collapses it into a mapping).  The sequence restriction is needed:
an object element of a sequence of `S` that the first merge deep-copied
is re-appended by the second merge, `includes` comparing it by reference
with the copy. -/
theorem reverseMerge_idem (t s : JVal) (hwfs : wf s = true)
    (hscs : scalarArrays s = true)
    (hcond : t = .null → s = .null ∨ isPlainObject s = true) :
    reverseMerge (reverseMerge t s) s = reverseMerge t s := by
  by_cases ht : t = .null
  · subst ht
    rcases hcond rfl with hs | hs
    · subst hs
      rw [reverseMerge_null_null, reverseMerge_null_right (fun h => JVal.noConfusion h)]
    · cases s with
      | obj o =>
        rw [reverseMerge_null_left (fun h => JVal.noConfusion h)]
        exact reverseMerge_self_obj o hwfs hscs
      | null => exact absurd hs (by simp [isPlainObject])
      | bool b => exact absurd hs (by simp [isPlainObject])
      | num n => exact absurd hs (by simp [isPlainObject])
      | str s0 => exact absurd hs (by simp [isPlainObject])
      | arr l => exact absurd hs (by simp [isPlainObject])
  · by_cases hs : s = .null
    · subst hs
      rw [reverseMerge_null_right ht, reverseMerge_null_right ht]
    · -- both inputs non-null: the merge is an object; re-merge it key by key
      rw [reverseMerge_eq_obj t s ht hs]
      have hLne : JVal.obj ((allKeys t s).filterMap (fun k =>
          (mergeStep (jsGet t k) (jsGet s k)).map (fun v => (k, v)))) ≠ .null :=
        fun h => JVal.noConfusion h
      rw [reverseMerge_eq_obj _ s hLne hs]
      have hkeysL : jsKeys (JVal.obj ((allKeys t s).filterMap (fun k =>
          (mergeStep (jsGet t k) (jsGet s k)).map (fun v => (k, v)))))
          = (allKeys t s).filter (fun k => (mergeStep (jsGet t k) (jsGet s k)).isSome) :=
        map_fst_filterMap _ _
      have hndL : ((allKeys t s).filter
          (fun k => (mergeStep (jsGet t k) (jsGet s k)).isSome)).Nodup :=
        (allKeys_nodup t s).filter _
      have hcov : ∀ k ∈ jsKeys s,
          k ∈ (allKeys t s).filter (fun k => (mergeStep (jsGet t k) (jsGet s k)).isSome) := by
        intro k hk
        rw [List.mem_filter]
        refine ⟨mem_allKeys.mpr (Or.inr hk), ?_⟩
        cases hsk : jsGet s k with
        | none =>
          exact absurd (lookup_none_iff.mp hsk) (by simpa [jsKeys] using hk)
        | some w =>
          cases htk : jsGet t k with
          | none => cases w <;> rfl
          | some tv => cases tv <;> cases w <;> simp [mergeStep]
      have hallKeys2 : allKeys (JVal.obj ((allKeys t s).filterMap (fun k =>
          (mergeStep (jsGet t k) (jsGet s k)).map (fun v => (k, v))))) s
          = (allKeys t s).filter (fun k => (mergeStep (jsGet t k) (jsGet s k)).isSome) := by
        rw [allKeys, hkeysL]
        exact dedupFirst_append_covered hndL hcov
      rw [hallKeys2]
      congr 1
      refine filter_isSome_filterMap (allKeys t s) _ _ ?_
      intro k hk u hstep
      have hgetL : jsGet (JVal.obj ((allKeys t s).filterMap (fun k =>
          (mergeStep (jsGet t k) (jsGet s k)).map (fun v => (k, v))))) k = some u := by
        have hback : ∀ (L : List (String × JVal)), jsGet (.obj L) k = List.lookup k L :=
          fun _ => rfl
        rw [hback, lookup_filterMap (allKeys_nodup t s), if_pos hk, hstep]
      rw [hgetL]
      show mergeStep (some u) (jsGet s k) = some u
      -- case analysis over the branch the first merge took at this key
      cases htk : jsGet t k with
      | none =>
        rw [htk] at hstep
        -- target has no value here: the first merge took the source value
        cases hsk : jsGet s k with
        | none => rw [hsk] at hstep; exact absurd hstep (by simp [mergeStep])
        | some w =>
          rw [hsk] at hstep
          have hw : w = u := by simpa [mergeStep] using hstep
          subst hw
          have hwfw : wf w = true := wf_jsGet hwfs hsk
          have hscw : scalarArrays w = true := scalarArrays_jsGet hscs hsk
          cases w with
          | null => rfl
          | bool b => rfl
          | num n => rfl
          | str s0 => rfl
          | arr l =>
            rw [scalarArrays] at hscw
            show some (JVal.arr (l ++ l.filter (fun v => !jsIncludes l v))) = _
            rw [filter_includes_self l hscw, List.append_nil]
          | obj o2 =>
            show some (reverseMerge (.obj o2) (.obj o2)) = _
            rw [reverseMerge_self_obj o2 hwfw hscw]
      | some tv =>
        rw [htk] at hstep
        cases hsk : jsGet s k with
        | none =>
          rw [hsk] at hstep
          -- source has no value: the target value was kept (or dropped if null)
          cases tv with
          | null => exact absurd hstep (by simp [mergeStep])
          | bool b => cases hstep; rfl
          | num n => cases hstep; rfl
          | str s0 => cases hstep; rfl
          | arr l => cases hstep; rfl
          | obj o2 => cases hstep; rfl
        | some sv =>
          rw [hsk] at hstep
          cases tv with
          | null =>
            -- null target value: the source value was taken
            have hw : sv = u := by simpa [mergeStep] using hstep
            subst hw
            have hwfw : wf sv = true := wf_jsGet hwfs hsk
            have hscw : scalarArrays sv = true := scalarArrays_jsGet hscs hsk
            cases sv with
            | null => rfl
            | bool b => rfl
            | num n => rfl
            | str s0 => rfl
            | arr l =>
              rw [scalarArrays] at hscw
              show some (JVal.arr (l ++ l.filter (fun v => !jsIncludes l v))) = _
              rw [filter_includes_self l hscw, List.append_nil]
            | obj o2 =>
              show some (reverseMerge (.obj o2) (.obj o2)) = _
              rw [reverseMerge_self_obj o2 hwfw hscw]
          | bool b => cases sv <;> (cases hstep; rfl)
          | num n => cases sv <;> (cases hstep; rfl)
          | str s0 => cases sv <;> (cases hstep; rfl)
          | arr ta =>
            cases sv with
            | arr sa =>
              -- the union case: re-merging appends nothing new
              have hu : JVal.arr (ta ++ sa.filter (fun v => !jsIncludes ta v)) = u := by
                simpa [mergeStep] using hstep
              subst hu
              have hscsa : scalarArrays (.arr sa) = true := scalarArrays_jsGet hscs hsk
              rw [scalarArrays] at hscsa
              show some (JVal.arr (_ ++ sa.filter _)) = _
              rw [filter_includes_union ta sa hscsa, List.append_nil]
            | null => cases hstep; rfl
            | bool b => cases hstep; rfl
            | num n => cases hstep; rfl
            | str s0 => cases hstep; rfl
            | obj o2 => cases hstep; rfl
          | obj to2 =>
            cases sv with
            | obj so2 =>
              -- the recursion case: apply idempotence to the subtrees
              have hu : reverseMerge (.obj to2) (.obj so2) = u := by
                simpa [mergeStep] using hstep
              have hwfso : wf (.obj so2) = true := wf_jsGet hwfs hsk
              have hscso : scalarArrays (.obj so2) = true := scalarArrays_jsGet hscs hsk
              have hidem := reverseMerge_idem (.obj to2) (.obj so2) hwfso hscso
                (fun h => JVal.noConfusion h)
              have hobj : ∃ L2, reverseMerge (.obj to2) (.obj so2) = .obj L2 := by
                rw [reverseMerge_eq_obj _ _ (fun h => JVal.noConfusion h)
                  (fun h => JVal.noConfusion h)]
                exact ⟨_, rfl⟩
              obtain ⟨L2, hL2⟩ := hobj
              rw [hL2] at hu
              subst hu
              show some (reverseMerge (.obj L2) (.obj so2)) = _
              rw [← hL2, hidem, hL2]
            | null => cases hstep; rfl
            | bool b => cases hstep; rfl
            | num n => cases hstep; rfl
            | str s0 => cases hstep; rfl
            | arr l => cases hstep; rfl
termination_by sizeOf s
decreasing_by
  exact jsGet_obj_sizeOf hsk

/-- Claim C3 counterexample: idempotence fails as stated, in two ways.
First, with `T = null` and `S = 5`, `merge(T,S)` is the deep copy `5`,
but merging `5` with `5` builds a fresh mapping over the (empty) key set
of `5`, so `merge(merge(T,S),S) = {} ≠ 5 = merge(T,S)`.  Second, even
where `merge(T,S)` is a mapping: with `T = {b:null}` and
`S = {b:[{x:1}]}`, the gap fill makes `merge(T,S) = {b:[{x:1}]}` a deep
copy, and the second merge appends the object element again —
`includes` compares it with the copy by reference and never finds it —
so `merge(merge(T,S),S) = {b:[{x:1},{x:1}]} ≠ merge(T,S)`. -/
theorem reverseMerge_idem_counterexample :
    reverseMerge (reverseMerge .null (.num 5)) (.num 5) ≠ reverseMerge .null (.num 5) ∧
    reverseMerge
        (reverseMerge (.obj [("b", .null)]) (.obj [("b", .arr [.obj [("x", .num 1)]])]))
        (.obj [("b", .arr [.obj [("x", .num 1)]])])
      ≠ reverseMerge (.obj [("b", .null)]) (.obj [("b", .arr [.obj [("x", .num 1)]])]) := by
  constructor
  · rw [reverseMerge_null_left (fun h => JVal.noConfusion h)]
    rw [reverseMerge_eq_obj _ _ (fun h => JVal.noConfusion h) (fun h => JVal.noConfusion h)]
    exact fun h => JVal.noConfusion h
  · have h1 : reverseMerge (.obj [("b", .null)]) (.obj [("b", .arr [.obj [("x", .num 1)]])])
        = .obj [("b", .arr [.obj [("x", .num 1)]])] := by
      rw [reverseMerge_eq_obj _ _ (by decide) (by decide)]
      decide
    rw [h1]
    rw [reverseMerge_eq_obj _ _ (by decide) (by decide)]
    decide

/-- Claim C3 witness: idempotence at a pair of mappings with both the
union and the recursion case exercised. -/
theorem reverseMerge_idem_witness :
    reverseMerge
        (reverseMerge (.obj [("a", .arr [.num 1]), ("c", .obj [("d", .null)])])
          (.obj [("a", .arr [.num 2]), ("b", .num 3), ("c", .obj [("d", .num 4)])]))
        (.obj [("a", .arr [.num 2]), ("b", .num 3), ("c", .obj [("d", .num 4)])])
      = reverseMerge (.obj [("a", .arr [.num 1]), ("c", .obj [("d", .null)])])
          (.obj [("a", .arr [.num 2]), ("b", .num 3), ("c", .obj [("d", .num 4)])]) :=
  reverseMerge_idem _ _ (by decide) (by decide) (fun h => JVal.noConfusion h)

/-! The installer state model.  The filesystem is a finite association
list from absolute paths to byte contents; a directory whose existence the
code consults appears as an entry for its path.  Terminal input is a list
of answers; running out of answers models blocking forever on a prompt. -/

/-- A filesystem: list of (path, contents). -/
abbrev FS := List (String × String)

/-- `fs.readFileSync` / `fs.existsSync` (via `isSome`). -/
def getFile (fs : FS) (p : String) : Option String :=
  List.lookup p fs

/-- `fs.writeFileSync`: update in place, or append a fresh entry. -/
def setFile : FS → String → String → FS
  | [], p, c => [(p, c)]
  | e :: rest, p, c => if e.1 = p then (p, c) :: rest else e :: setFile rest p c

/-- `fs.unlinkSync` (a no-op when the file is absent, matching the ignored
unlink error in `writeJsonAtomic`). -/
def removeFile : FS → String → FS
  | [], _ => []
  | e :: rest, p => if e.1 = p then removeFile rest p else e :: removeFile rest p

/-- Does path `p` live under directory `d` (i.e. `d` is a string prefix of
`p`)? -/
def underDir (d p : String) : Bool :=
  d.toList.isPrefixOf p.toList

/-- `fs.rmSync(dir, {recursive: true, force: true})`: drop every entry
whose path lies under the directory. -/
def removeTree : FS → String → FS
  | [], _ => []
  | e :: rest, d => if underDir d e.1 then removeTree rest d else e :: removeTree rest d

/-- `fs.renameSync`. -/
def renameFile (fs : FS) (src dst : String) : FS :=
  match getFile fs src with
  | some c => setFile (removeFile fs src) dst c
  | none => fs

/-- `path.join` for the two-segment joins the installer performs. -/
def pjoin (a b : String) : String := a ++ "/" ++ b

/-- Split a character list at every occurrence of a separator. -/
def splitChar (sep : Char) : List Char → List (List Char)
  | [] => [[]]
  | c :: rest =>
    match splitChar sep rest with
    | [] => [[]]
    | seg :: segs => if c = sep then [] :: seg :: segs else (c :: seg) :: segs

/-- `s.split(sep)` for a one-character separator. -/
def splitOnChar (sep : Char) (s : String) : List String :=
  (splitChar sep s.toList).map String.mk

/-- `path.dirname`: everything before the last path separator. -/
def pdirname (p : String) : String :=
  String.intercalate "/" ((splitOnChar '/' p).dropLast)

/-- ASCII whitespace, the relevant fragment of what `String.prototype.trim`
removes. -/
def isWS (c : Char) : Bool :=
  c = ' ' ∨ c = '\t' ∨ c = '\n' ∨ c = '\r'

/-- `s.trim()`. -/
def jsTrim (s : String) : String :=
  String.mk (((s.toList.dropWhile isWS).reverse.dropWhile isWS).reverse)

/-- `s.toLowerCase()` on the ASCII range. -/
def jsToLower (s : String) : String :=
  String.mk (s.toList.map (fun c =>
    if 'A' ≤ c ∧ c ≤ 'Z' then Char.ofNat (c.toNat + 32) else c))

/-- `s.endsWith(suffix)`. -/
def strEndsWith (s suffix : String) : Bool :=
  suffix.toList.isSuffixOf s.toList

/-- `parseInt(s, 10)` restricted to plain decimal numerals (the only
answers the stack menu accepts as numbers). -/
def jsParseInt (s : String) : Option Nat :=
  let digits := s.toList.map (fun c =>
    if '0' ≤ c ∧ c ≤ '9' then some (c.toNat - 48) else none)
  if s.toList.isEmpty then none
  else digits.foldl (fun acc d? =>
    match acc, d? with
    | some acc', some d => some (acc' * 10 + d)
    | _, _ => none) (some 0)

/-- The result of one installer step: normal return, a thrown error
(propagates through `try/finally`), `process.exit` (bypasses `finally`),
or blocking forever on terminal input. -/
inductive Outcome (α : Type) where
  | ok : α → Outcome α
  | thrown : Outcome α
  | exited : Outcome α
  | blocked : Outcome α
deriving DecidableEq

/-- Parsed command-line options (`parseArgs`). -/
structure Opts where
  target : String
  source : Option String
  remote : Option String
  stack : Option String
  dryRun : Bool
  yes : Bool
  help : Bool

/-- `AVAILABLE_STACKS`. -/
def AVAILABLE_STACKS : List String := ["typescript", "kubernetes"]

/-- The shape of a settings-reconciliation result:
`{ added, unchanged, status }`. -/
structure MergeResult where
  added : List String
  unchanged : List String
  status : String
deriving DecidableEq

/-- `SKIP_RESULT`. -/
def SKIP_RESULT : MergeResult := ⟨[], [], "skipped"⟩

/-- The temporary path `writeJsonAtomic` uses:
`<dir>/.settings.json.<pid>.tmp`. -/
def tmpPath (targetPath : String) (pid : Nat) : String :=
  pjoin (pdirname targetPath) (".settings.json." ++ toString pid ++ ".tmp")

/-- `writeJsonAtomic(targetPath, data)`: serialize, write a temporary
file, rename it onto the target; on a failed write or rename, unlink the
temporary file (ignoring unlink errors) and rethrow.  `writeOk` and
`renameOk` say whether the two filesystem operations succeed; `stringify`
is `(data) => JSON.stringify(data, null, 2)`.  The unconditional
`mkdirSync` touches only directories and is not tracked. -/
def writeJsonAtomic (stringify : JVal → String) (pid : Nat)
    (writeOk renameOk : Bool) (fs : FS) (targetPath : String) (data : JVal) :
    Outcome Unit × FS :=
  let content := stringify data ++ "\n"
  let tmp := tmpPath targetPath pid
  if writeOk then
    let fs1 := setFile fs tmp content
    if renameOk then (.ok (), renameFile fs1 tmp targetPath)
    else (.thrown, removeFile fs1 tmp)
  else (.thrown, removeFile fs tmp)

/-- `computeKeyChanges(before, after)`: the added / changed / unchanged
top-level keys, values compared by serialization. -/
def computeKeyChanges (stringify : JVal → String) (before after : JVal) :
    List String × List String × List String :=
  let beforeKeys := jsKeys before
  let afterKeys := jsKeys after
  let added := afterKeys.filter (fun k => !beforeKeys.contains k)
  let changed := afterKeys.filter
    (fun k => !((jsGet before k).map stringify == (jsGet after k).map stringify))
  let unchanged := beforeKeys.filter (fun k => !changed.contains k)
  (added, changed, unchanged)

/-- `promptOverwriteInvalidJson`: in `--yes` mode always skip (return
`false`); interactively, consume one answer and overwrite only on
`y`/`yes`.  Returns the decision and the remaining terminal input. -/
def promptOverwriteInvalidJson (yes : Bool) (answers : List String) :
    Outcome Bool × List String :=
  if yes then (.ok false, answers)
  else
    match answers with
    | [] => (.blocked, [])
    | a :: rest =>
      let ans := jsToLower (jsTrim a)
      if ans = "y" ∨ ans = "yes" then (.ok true, rest) else (.ok false, rest)

/-- The tail of `mergeSettings` once a target tree has been obtained:
merge, compare serializations, report, and (outside dry-run) persist
atomically.  (`targetWasEmpty` only affects console output and is not
tracked.) -/
def mergeSettingsWrite (stringify : JVal → String) (pid : Nat)
    (writeOk renameOk : Bool) (opts : Opts) (fs : FS) (targetPath : String)
    (sourceSettings targetSettings : JVal) : Outcome MergeResult × FS :=
  let merged := reverseMerge targetSettings sourceSettings
  let beforeJson := stringify targetSettings
  let afterJson := stringify merged
  if beforeJson = afterJson then
    (.ok ⟨[], jsKeys targetSettings, "unchanged"⟩, fs)
  else
    let kc := computeKeyChanges stringify targetSettings merged
    if opts.dryRun then (.ok ⟨kc.1, kc.2.2, "dry-run"⟩, fs)
    else
      match writeJsonAtomic stringify pid writeOk renameOk fs targetPath merged with
      | (.ok _, fs2) => (.ok ⟨kc.1, kc.2.2, "updated"⟩, fs2)
      | (.thrown, fs2) => (.thrown, fs2)
      | (.exited, fs2) => (.exited, fs2)
      | (.blocked, fs2) => (.blocked, fs2)

/-- `mergeSettings(opts, sourcePath, targetPath, label)`: read and parse
the source template (missing source skips, a malformed template is fatal),
read the target (missing or empty means an empty base; malformed JSON asks
`promptOverwriteInvalidJson`), then merge and persist. -/
def mergeSettings (parse : String → Option JVal) (stringify : JVal → String)
    (pid : Nat) (writeOk renameOk : Bool) (opts : Opts) (answers : List String)
    (fs : FS) (sourcePath targetPath : String) :
    Outcome MergeResult × FS × List String :=
  match getFile fs sourcePath with
  | none => (.ok SKIP_RESULT, fs, answers)
  | some sourceRaw =>
    match parse sourceRaw with
    | none => (.exited, fs, answers)
    | some sourceSettings =>
      match getFile fs targetPath with
      | none =>
        let r := mergeSettingsWrite stringify pid writeOk renameOk opts fs targetPath
          sourceSettings (JVal.obj [])
        (r.1, r.2, answers)
      | some raw =>
        if jsTrim raw = "" then
          let r := mergeSettingsWrite stringify pid writeOk renameOk opts fs targetPath
            sourceSettings (JVal.obj [])
          (r.1, r.2, answers)
        else
          match parse raw with
          | some targetSettings =>
            let r := mergeSettingsWrite stringify pid writeOk renameOk opts fs targetPath
              sourceSettings targetSettings
            (r.1, r.2, answers)
          | none =>
            match promptOverwriteInvalidJson opts.yes answers with
            | (.ok true, rest) =>
              let r := mergeSettingsWrite stringify pid writeOk renameOk opts fs targetPath
                sourceSettings (JVal.obj [])
              (r.1, r.2, rest)
            | (.ok false, rest) => (.ok SKIP_RESULT, fs, rest)
            | (.thrown, rest) => (.thrown, fs, rest)
            | (.exited, rest) => (.exited, fs, rest)
            | (.blocked, rest) => (.blocked, fs, rest)

/-- A file-manifest entry produced by walking a skill directory:
`{ relativePath, srcPath, dstPath }`. -/
structure Entry where
  relativePath : String
  srcPath : String
  dstPath : String
deriving DecidableEq

/-- The interactive conflict prompt loop for one existing destination:
`s`/`skip` resolves to skip, `o`/`overwrite` to overwrite; `d`/`diff`
displays a diff and re-prompts; anything else re-prompts.  `none` means
the terminal input was exhausted (the process would block). -/
def resolveConflict : List String → Option (Bool × List String)
  | [] => none
  | a :: rest =>
    let ans := jsToLower (jsTrim a)
    if ans = "s" ∨ ans = "skip" then some (false, rest)
    else if ans = "o" ∨ ans = "overwrite" then some (true, rest)
    else resolveConflict rest

/-- The per-file loop of `installSkills`: dry-run only classifies; a
missing destination is copied (`cpSync` throws if the source cannot be
read); an existing destination is auto-skipped in `--yes` mode and
otherwise resolved interactively. -/
def runEntries (opts : Opts) : List Entry → List String → List String → FS →
    List String → Outcome (List String × List String) × FS × List String
  | [], inst, skip, fs, answers => (.ok (inst, skip), fs, answers)
  | e :: rest, inst, skip, fs, answers =>
    let exists_ := (getFile fs e.dstPath).isSome
    if opts.dryRun then
      if exists_ then runEntries opts rest inst (skip ++ [e.relativePath]) fs answers
      else runEntries opts rest (inst ++ [e.relativePath]) skip fs answers
    else if !exists_ then
      match getFile fs e.srcPath with
      | none => (.thrown, fs, answers)
      | some c =>
        runEntries opts rest (inst ++ [e.relativePath]) skip (setFile fs e.dstPath c) answers
    else if opts.yes then
      runEntries opts rest inst (skip ++ [e.relativePath]) fs answers
    else
      match resolveConflict answers with
      | none => (.blocked, fs, answers)
      | some (false, rest2) =>
        runEntries opts rest inst (skip ++ [e.relativePath]) fs rest2
      | some (true, rest2) =>
        match getFile fs e.srcPath with
        | none => (.thrown, fs, rest2)
        | some c =>
          runEntries opts rest (inst ++ [e.relativePath]) skip (setFile fs e.dstPath c) rest2

/-- `installSkills`: the manifest (built by the read-only directory walk
over `<sourceDir>/<stack>/.claude/skills`) is supplied as input and
processed exactly as the source's loop does.  The guarded `mkdirSync`
calls touch only directories and are not tracked. -/
def installSkills (opts : Opts) (manifest : List Entry) (fs : FS)
    (answers : List String) : Outcome (List String × List String) × FS × List String :=
  runEntries opts manifest [] [] fs answers

/-- `updateGitignore`: skip outside a git repository; otherwise ensure the
exact line `/plans` is present, appending (with a separating newline when
needed) or creating the file, honouring dry-run.  The returned string is
the `status` field of the result object. -/
def updateGitignore (opts : Opts) (fs : FS) (targetDir : String) :
    Outcome String × FS :=
  if (getFile fs (pjoin targetDir ".git")).isNone then (.ok "skipped", fs)
  else
    let gitignorePath := pjoin targetDir ".gitignore"
    match getFile fs gitignorePath with
    | some existingContent =>
      if (splitOnChar '\n' existingContent).contains "/plans" then (.ok "already-present", fs)
      else
        let needsNewline := existingContent.length > 0 && !strEndsWith existingContent "\n"
        let newContent := existingContent ++ (if needsNewline then "\n" else "") ++ "/plans" ++ "\n"
        if opts.dryRun then (.ok "dry-run", fs)
        else (.ok "updated", setFile fs gitignorePath newContent)
    | none =>
      if opts.dryRun then (.ok "dry-run", fs)
      else (.ok "created", setFile fs gitignorePath ("/plans" ++ "\n"))

/-- The numbered-menu loop of `selectStack` (`parseInt` is modelled by
decimal parsing; a stack name, lowercased, is also accepted; anything else
re-prompts). -/
def selectStackLoop (availableStacks : List String) :
    List String → Option (String × List String)
  | [] => none
  | a :: rest =>
    let answer := jsTrim a
    match jsParseInt answer with
    | some n =>
      if 1 ≤ n ∧ n ≤ availableStacks.length then
        some (availableStacks.getD (n - 1) "", rest)
      else if availableStacks.contains (jsToLower answer) then
        some (jsToLower answer, rest)
      else selectStackLoop availableStacks rest
    | none =>
      if availableStacks.contains (jsToLower answer) then
        some (jsToLower answer, rest)
      else selectStackLoop availableStacks rest

/-- `selectStack(opts, sourceDir)`: an explicit `--stack` is validated
against the source directory (fatal if its directory is missing); `--yes`
without `--stack` is fatal before anything else happens; otherwise an
interactive menu over the discovered stack directories. -/
def selectStack (opts : Opts) (fs : FS) (sourceDir : String)
    (answers : List String) : Outcome String × FS × List String :=
  match opts.stack with
  | some st =>
    if (getFile fs (pjoin sourceDir st)).isSome then (.ok st, fs, answers)
    else (.exited, fs, answers)
  | none =>
    if opts.yes then (.exited, fs, answers)
    else
      let availableStacks :=
        AVAILABLE_STACKS.filter (fun st => (getFile fs (pjoin sourceDir st)).isSome)
      if availableStacks.isEmpty then (.exited, fs, answers)
      else
        match selectStackLoop availableStacks answers with
        | none => (.blocked, fs, answers)
        | some (st, rest) => (.ok st, fs, rest)

/-- The ambient configuration of a run: the JSON codec, the process id,
the script and home directories, the fresh name `mkdtempSync` would
produce, the relative files a successful clone deposits, and success
oracles for the external git commands and the two filesystem operations
of `writeJsonAtomic`. -/
structure Cfg where
  parse : String → Option JVal
  stringify : JVal → String
  pid : Nat
  scriptDir : String
  homeDir : String
  tmpName : String
  cloneFiles : List (String × String)
  gitOk : Bool
  cloneOk : Bool
  writeOk : Bool
  renameOk : Bool

/-- `resolveSource(opts)`: an explicit `--source` must exist; otherwise
the script's own directory when it holds stack directories and no remote
was requested; otherwise verify git, create a temporary directory and
shallow-clone into it (a failed clone removes the directory and is
fatal). -/
def resolveSource (cfg : Cfg) (opts : Opts) (fs : FS) :
    Outcome (String × Option String) × FS :=
  match opts.source with
  | some src =>
    if (getFile fs src).isSome then (.ok (src, none), fs) else (.exited, fs)
  | none =>
    let hasStacks :=
      AVAILABLE_STACKS.any (fun st => (getFile fs (pjoin cfg.scriptDir st)).isSome)
    if hasStacks && opts.remote.isNone then (.ok (cfg.scriptDir, none), fs)
    else if !cfg.gitOk then (.exited, fs)
    else
      let fs1 := setFile fs cfg.tmpName ""
      if !cfg.cloneOk then (.exited, removeTree fs1 cfg.tmpName)
      else
        let fs2 := cfg.cloneFiles.foldl
          (fun a e => setFile a (pjoin cfg.tmpName e.1) e.2) fs1
        (.ok (cfg.tmpName, some cfg.tmpName), fs2)

/-- Sequence one step's result into the next step. -/
def stepBind {α β : Type} (r : Outcome α × FS × List String)
    (f : α → FS → List String → Outcome β × FS × List String) :
    Outcome β × FS × List String :=
  match r with
  | (.ok a, fs, ans) => f a fs ans
  | (.thrown, fs, ans) => (.thrown, fs, ans)
  | (.exited, fs, ans) => (.exited, fs, ans)
  | (.blocked, fs, ans) => (.blocked, fs, ans)

/-- The step sequence of `main` after stack selection: skill installation,
project-settings reconciliation, user-settings reconciliation, gitignore
update. -/
def runInstallSteps (cfg : Cfg) (opts : Opts) (manifest : List Entry)
    (sourceDir stack : String) (fs : FS) (answers : List String) :
    Outcome Unit × FS × List String :=
  stepBind (installSkills opts manifest fs answers) fun _ fs2 ans2 =>
  stepBind (mergeSettings cfg.parse cfg.stringify cfg.pid cfg.writeOk cfg.renameOk
      opts ans2 fs2
      (pjoin (pjoin sourceDir stack) "settings.json")
      (pjoin (pjoin opts.target ".claude") "settings.json")) fun _ fs3 ans3 =>
  stepBind (mergeSettings cfg.parse cfg.stringify cfg.pid cfg.writeOk cfg.renameOk
      opts ans3 fs3
      (pjoin (pjoin sourceDir stack) "user-settings.json")
      (pjoin (pjoin cfg.homeDir ".claude") "settings.json")) fun _ fs4 ans4 =>
  match updateGitignore opts fs4 opts.target with
  | (.ok _, fs5) => (.ok (), fs5, ans4)
  | (.thrown, fs5) => (.thrown, fs5, ans4)
  | (.exited, fs5) => (.exited, fs5, ans4)
  | (.blocked, fs5) => (.blocked, fs5, ans4)

/-- The body of `main`'s `try`: stack selection followed by the install
steps. -/
def runBody (cfg : Cfg) (opts : Opts) (manifest : List Entry)
    (sourceDir : String) (fs : FS) (answers : List String) :
    Outcome Unit × FS × List String :=
  stepBind (selectStack opts fs sourceDir answers) fun stack fs1 ans1 =>
    runInstallSteps cfg opts manifest sourceDir stack fs1 ans1

/-- `main`: parse options (supplied already parsed), resolve the source,
run the body, and in the `finally` block remove the temporary clone
directory if one was created.  `process.exit` terminates the process
immediately, so the `finally` cleanup runs only on the normal and thrown
paths. -/
def runMain (cfg : Cfg) (opts : Opts) (manifest : List Entry) (fs : FS)
    (answers : List String) : Outcome Unit × FS :=
  if opts.help then (.exited, fs)
  else
    match resolveSource cfg opts fs with
    | (.ok (sourceDir, tempDir), fs1) =>
      (match runBody cfg opts manifest sourceDir fs1 answers with
       | (.ok _, fs2, _) =>
         (.ok (), match tempDir with | some d => removeTree fs2 d | none => fs2)
       | (.thrown, fs2, _) =>
         (.thrown, match tempDir with | some d => removeTree fs2 d | none => fs2)
       | (.exited, fs2, _) => (.exited, fs2)
       | (.blocked, fs2, _) => (.blocked, fs2))
    | (.thrown, fs1) => (.thrown, fs1)
    | (.exited, fs1) => (.exited, fs1)
    | (.blocked, fs1) => (.blocked, fs1)

theorem getFile_cons_ne {e : String × String} {rest : FS} {p : String}
    (h : p ≠ e.1) : getFile (e :: rest) p = getFile rest p := by
  simp [getFile, List.lookup, beq_false_of_ne h]

theorem getFile_cons_eq {e : String × String} {rest : FS} {p : String}
    (h : p = e.1) : getFile (e :: rest) p = some e.2 := by
  simp [getFile, List.lookup, h]

theorem getFile_setFile (fs : FS) (p q c : String) :
    getFile (setFile fs q c) p = if p = q then some c else getFile fs p := by
  induction fs with
  | nil =>
    by_cases hpq : p = q <;>
      simp [setFile, getFile, List.lookup, hpq, beq_false_of_ne]
  | cons e rest ih =>
    by_cases heq : e.1 = q
    · rw [setFile, if_pos heq]
      by_cases hpq : p = q
      · rw [if_pos hpq]
        exact getFile_cons_eq hpq
      · rw [if_neg hpq]
        rw [getFile_cons_ne (show p ≠ (q, c).1 from hpq)]
        rw [getFile_cons_ne (show p ≠ e.1 from heq ▸ hpq)]
    · rw [setFile, if_neg heq]
      by_cases hpe : p = e.1
      · have hpq : p ≠ q := fun h => heq (hpe ▸ h)
        rw [if_neg hpq, getFile_cons_eq hpe, getFile_cons_eq hpe]
      · rw [getFile_cons_ne hpe, getFile_cons_ne hpe] at *
        rw [ih]

theorem getFile_removeFile (fs : FS) (p q : String) :
    getFile (removeFile fs q) p = if p = q then none else getFile fs p := by
  induction fs with
  | nil => by_cases hpq : p = q <;> simp [removeFile, getFile, List.lookup, hpq]
  | cons e rest ih =>
    by_cases heq : e.1 = q
    · rw [removeFile, if_pos heq, ih]
      by_cases hpq : p = q
      · simp [hpq]
      · rw [if_neg hpq, if_neg hpq]
        rw [getFile_cons_ne (show p ≠ e.1 from heq ▸ hpq)]
    · rw [removeFile, if_neg heq]
      by_cases hpe : p = e.1
      · have hpq : p ≠ q := fun h => heq (hpe ▸ h)
        rw [if_neg hpq, getFile_cons_eq hpe, getFile_cons_eq hpe]
      · rw [getFile_cons_ne hpe, getFile_cons_ne hpe, ih]

theorem getFile_removeTree_under {d p : String} (fs : FS) (h : underDir d p = true) :
    getFile (removeTree fs d) p = none := by
  induction fs with
  | nil => rfl
  | cons e rest ih =>
    rw [removeTree]
    by_cases he : underDir d e.1 = true
    · rw [if_pos he]
      exact ih
    · rw [if_neg he]
      have hpe : p ≠ e.1 := fun hp => he (hp ▸ h)
      rw [getFile_cons_ne hpe]
      exact ih

theorem getFile_removeTree_not {d p : String} (fs : FS) (h : underDir d p = false) :
    getFile (removeTree fs d) p = getFile fs p := by
  induction fs with
  | nil => rfl
  | cons e rest ih =>
    rw [removeTree]
    by_cases he : underDir d e.1 = true
    · rw [if_pos he]
      have hpe : p ≠ e.1 := fun hp => by rw [hp, he] at h; exact Bool.noConfusion h
      rw [getFile_cons_ne hpe, ih]
    · rw [if_neg he]
      by_cases hpe : p = e.1
      · rw [getFile_cons_eq hpe, getFile_cons_eq hpe]
      · rw [getFile_cons_ne hpe, getFile_cons_ne hpe, ih]

/-- Claim C7: atomic settings persistence.  Persisting writes the
serialized tree to a temporary file and renames it onto the target, so on
success the target holds exactly the serialized bytes and the temporary
file is gone; on any failure of the write or the rename the call throws
(the error propagates), the temporary file is removed, and the target is
untouched; and the reconciler's write path (`mergeSettingsWrite`)
propagates such a failure instead of swallowing it, again leaving no
temporary file behind. -/
theorem writeJsonAtomic_atomic (stringify : JVal → String) (pid : Nat)
    (writeOk renameOk : Bool) (fs : FS) (targetPath : String) (data : JVal)
    (hsep : tmpPath targetPath pid ≠ targetPath) :
    (writeOk = true → renameOk = true →
      (writeJsonAtomic stringify pid writeOk renameOk fs targetPath data).1 = .ok () ∧
      getFile (writeJsonAtomic stringify pid writeOk renameOk fs targetPath data).2
          targetPath = some (stringify data ++ "\n") ∧
      getFile (writeJsonAtomic stringify pid writeOk renameOk fs targetPath data).2
          (tmpPath targetPath pid) = none) ∧
    (writeOk = false ∨ renameOk = false →
      (writeJsonAtomic stringify pid writeOk renameOk fs targetPath data).1 = .thrown ∧
      getFile (writeJsonAtomic stringify pid writeOk renameOk fs targetPath data).2
          (tmpPath targetPath pid) = none ∧
      getFile (writeJsonAtomic stringify pid writeOk renameOk fs targetPath data).2
          targetPath = getFile fs targetPath) ∧
    (∀ (opts : Opts) (srcV tgtV : JVal), opts.dryRun = false →
      stringify tgtV ≠ stringify (reverseMerge tgtV srcV) →
      writeOk = false ∨ renameOk = false →
      (mergeSettingsWrite stringify pid writeOk renameOk opts fs targetPath srcV tgtV).1
          = .thrown ∧
      getFile (mergeSettingsWrite stringify pid writeOk renameOk opts fs targetPath
          srcV tgtV).2 (tmpPath targetPath pid) = none) := by
  have hfail : ∀ (d : JVal), writeOk = false ∨ renameOk = false →
      (writeJsonAtomic stringify pid writeOk renameOk fs targetPath d).1 = .thrown ∧
      getFile (writeJsonAtomic stringify pid writeOk renameOk fs targetPath d).2
          (tmpPath targetPath pid) = none ∧
      getFile (writeJsonAtomic stringify pid writeOk renameOk fs targetPath d).2
          targetPath = getFile fs targetPath := by
    intro d hf
    cases hw : writeOk with
    | false =>
      rw [writeJsonAtomic, if_neg Bool.false_ne_true]
      refine ⟨rfl, ?_, ?_⟩
      · show getFile (removeFile fs (tmpPath targetPath pid)) (tmpPath targetPath pid) = none
        rw [getFile_removeFile, if_pos rfl]
      · show getFile (removeFile fs (tmpPath targetPath pid)) targetPath = getFile fs targetPath
        rw [getFile_removeFile, if_neg (fun h => hsep h.symm)]
    | true =>
      have hr : renameOk = false := by
        rw [hw] at hf
        rcases hf with hf | hf
        · exact Bool.noConfusion hf
        · exact hf
      subst hr
      rw [writeJsonAtomic, if_pos rfl, if_neg Bool.false_ne_true]
      refine ⟨rfl, ?_, ?_⟩
      · show getFile (removeFile (setFile fs (tmpPath targetPath pid) _)
          (tmpPath targetPath pid)) (tmpPath targetPath pid) = none
        rw [getFile_removeFile, if_pos rfl]
      · show getFile (removeFile (setFile fs (tmpPath targetPath pid) _)
          (tmpPath targetPath pid)) targetPath = getFile fs targetPath
        rw [getFile_removeFile, if_neg (fun h => hsep h.symm),
          getFile_setFile, if_neg (fun h => hsep h.symm)]
  refine ⟨?_, hfail data, ?_⟩
  · intro hw hr
    subst hw
    subst hr
    rw [writeJsonAtomic, if_pos rfl, if_pos rfl]
    refine ⟨rfl, ?_, ?_⟩
    · show getFile (renameFile (setFile fs (tmpPath targetPath pid) _)
        (tmpPath targetPath pid) targetPath) targetPath = _
      rw [renameFile, getFile_setFile, if_pos rfl, getFile_setFile, if_pos rfl]
    · show getFile (renameFile (setFile fs (tmpPath targetPath pid) _)
        (tmpPath targetPath pid) targetPath) (tmpPath targetPath pid) = none
      rw [renameFile, getFile_setFile, if_pos rfl, getFile_setFile, if_neg hsep,
        getFile_removeFile, if_pos rfl]
  · intro opts srcV tgtV hdry hchanged hf
    have h1 := (hfail (reverseMerge tgtV srcV) hf).1
    have h2 := (hfail (reverseMerge tgtV srcV) hf).2.1
    unfold mergeSettingsWrite
    rw [if_neg hchanged]
    simp only [hdry, Bool.false_eq_true, if_false]
    rcases hwja : writeJsonAtomic stringify pid writeOk renameOk fs targetPath
        (reverseMerge tgtV srcV) with ⟨o, fs2⟩
    rw [hwja] at h1 h2
    simp only at h1 h2
    subst h1
    exact ⟨rfl, h2⟩

/-- Claim C7 witness: a successful write lands the serialized bytes on the
target with no temporary file left, and a failed write throws, removes the
temporary file and leaves the target untouched. -/
theorem writeJsonAtomic_atomic_witness :
    getFile (writeJsonAtomic (fun _ => "S") 1 true true [] "d/settings.json" .null).2
        "d/settings.json" = some ("S" ++ "\n") ∧
    (writeJsonAtomic (fun _ => "S") 1 false true [("d/settings.json", "old")]
        "d/settings.json" .null).1 = .thrown ∧
    getFile (writeJsonAtomic (fun _ => "S") 1 false true [("d/settings.json", "old")]
        "d/settings.json" .null).2 "d/settings.json" = some "old" := by
  refine ⟨?_, ?_, ?_⟩
  · exact ((writeJsonAtomic_atomic (fun _ => "S") 1 true true [] "d/settings.json"
      .null (by decide)).1 rfl rfl).2.1
  · exact ((writeJsonAtomic_atomic (fun _ => "S") 1 false true
      [("d/settings.json", "old")] "d/settings.json" .null (by decide)).2.1
      (Or.inl rfl)).1
  · have h := ((writeJsonAtomic_atomic (fun _ => "S") 1 false true
      [("d/settings.json", "old")] "d/settings.json" .null (by decide)).2.1
      (Or.inl rfl)).2.2
    rw [h]
    rfl

/-- Claim C4: settings-reconciler safety on malformed user data.  When the
target settings file exists with non-empty content that fails to parse and
the non-interactive flag is set (and the source template itself reads and
parses, so the reconciliation returns at all), `mergeSettings` returns the
skip result (status `skipped`) and leaves the filesystem — in particular
the target file's bytes — untouched, consuming no terminal input. -/
theorem mergeSettings_invalid_target_skips
    (parse : String → Option JVal) (stringify : JVal → String) (pid : Nat)
    (writeOk renameOk : Bool) (opts : Opts) (answers : List String) (fs : FS)
    (sourcePath targetPath sourceRaw raw : String) (sourceVal : JVal)
    (hyes : opts.yes = true)
    (hsrc : getFile fs sourcePath = some sourceRaw)
    (hsrcParse : parse sourceRaw = some sourceVal)
    (htgt : getFile fs targetPath = some raw)
    (hne : jsTrim raw ≠ "")
    (hbad : parse raw = none) :
    mergeSettings parse stringify pid writeOk renameOk opts answers fs
        sourcePath targetPath = (.ok SKIP_RESULT, fs, answers) := by
  rw [mergeSettings, hsrc]
  simp only [hsrcParse, htgt, if_neg hne, hbad]
  rw [promptOverwriteInvalidJson.eq_def, if_pos hyes]

/-- Claim C4 witness: a concrete run with parseable source and malformed,
non-empty target under `--yes` returns the skip result and leaves the
filesystem untouched. -/
theorem mergeSettings_invalid_target_skips_witness :
    mergeSettings (fun s => if s = "good" then some (.obj []) else none) (fun _ => "")
        1 true true ⟨"tg", none, none, some "typescript", false, true, false⟩ []
        [("src.json", "good"), ("tgt.json", "bad")] "src.json" "tgt.json"
      = (.ok SKIP_RESULT, [("src.json", "good"), ("tgt.json", "bad")], []) :=
  mergeSettings_invalid_target_skips
    (fun s => if s = "good" then some (.obj []) else none) (fun _ => "")
    1 true true ⟨"tg", none, none, some "typescript", false, true, false⟩ []
    [("src.json", "good"), ("tgt.json", "bad")] "src.json" "tgt.json"
    "good" "bad" (.obj []) rfl (by decide) (by decide) (by decide) (by decide) (by decide)

theorem isPrefixOf_append (l t : List Char) : l.isPrefixOf (l ++ t) = true := by
  induction l with
  | nil => simp [List.isPrefixOf]
  | cons a as ih => simp [List.isPrefixOf, ih]

theorem underDir_refl (d : String) : underDir d d = true := by
  have := isPrefixOf_append d.toList []
  simpa [underDir] using this

theorem underDir_append (d r : String) : underDir d (d ++ r) = true := by
  have hdata : (d ++ r).data = d.data ++ r.data := String.data_append d r
  simp only [underDir, String.toList, hdata]
  exact isPrefixOf_append d.data r.data

theorem underDir_pjoin (d r : String) : underDir d (pjoin d r) = true := by
  rw [pjoin, String.append_assoc]
  exact underDir_append d ("/" ++ r)

theorem ne_of_underDir_false {d p q : String} (hp : underDir d p = false)
    (hq : underDir d q = true) : p ≠ q := by
  intro h
  rw [h, hq] at hp
  exact Bool.noConfusion hp

theorem cloneFold_confined (tmp : String) (files : List (String × String)) (p : String)
    (hp : underDir tmp p = false) :
    ∀ (fs : FS),
      getFile (files.foldl (fun a e => setFile a (pjoin tmp e.1) e.2) fs) p
        = getFile fs p := by
  induction files with
  | nil => intro fs; rfl
  | cons e rest ih =>
    intro fs
    rw [List.foldl_cons, ih]
    rw [getFile_setFile, if_neg (ne_of_underDir_false hp (underDir_pjoin tmp e.1))]

/-- All writes of `resolveSource` land under the temporary directory. -/
theorem resolveSource_confined (cfg : Cfg) (opts : Opts) (fs : FS) (p : String)
    (hp : underDir cfg.tmpName p = false) :
    getFile (resolveSource cfg opts fs).2 p = getFile fs p := by
  have hne : p ≠ cfg.tmpName := ne_of_underDir_false hp (underDir_refl _)
  unfold resolveSource
  rcases opts.source with _ | src
  · by_cases h1 : (AVAILABLE_STACKS.any
        (fun st => (getFile fs (pjoin cfg.scriptDir st)).isSome) && opts.remote.isNone) = true
    · simp [h1]
    · simp only [h1, Bool.false_eq_true, if_false]
      by_cases h2 : (!cfg.gitOk) = true
      · simp [h2]
      · simp only [h2, Bool.false_eq_true, if_false]
        by_cases h3 : (!cfg.cloneOk) = true
        · simp only [h3, if_true]
          rw [getFile_removeTree_not _ hp, getFile_setFile, if_neg hne]
        · simp only [h3, Bool.false_eq_true, if_false]
          rw [cloneFold_confined cfg.tmpName cfg.cloneFiles p hp,
            getFile_setFile, if_neg hne]
  · by_cases h : (getFile fs src).isSome <;> simp [h]

/-- `resolveSource` reports a temporary directory only when it is the
fresh clone directory. -/
theorem resolveSource_tempDir (cfg : Cfg) (opts : Opts) (fs : FS)
    (sd : String) (td : Option String)
    (h : (resolveSource cfg opts fs).1 = .ok (sd, td)) :
    td = none ∨ td = some cfg.tmpName := by
  unfold resolveSource at h
  rcases hsrc : opts.source with _ | src
  all_goals rw [hsrc] at h
  · by_cases h1 : (AVAILABLE_STACKS.any
        (fun st => (getFile fs (pjoin cfg.scriptDir st)).isSome) && opts.remote.isNone) = true
    · simp [h1] at h
      exact Or.inl h.2.symm
    · simp only [h1, Bool.false_eq_true, if_false] at h
      by_cases h2 : (!cfg.gitOk) = true
      · simp [h2] at h
      · simp only [h2, Bool.false_eq_true, if_false] at h
        by_cases h3 : (!cfg.cloneOk) = true
        · simp [h3] at h
        · simp only [h3, Bool.false_eq_true, if_false] at h
          simp at h
          exact Or.inr h.2.symm
  · by_cases hs : (getFile fs src).isSome
    · simp [hs] at h
      exact Or.inl h.2.symm
    · simp [hs] at h

theorem selectStack_fs (opts : Opts) (fs : FS) (sourceDir : String)
    (answers : List String) : (selectStack opts fs sourceDir answers).2.1 = fs := by
  unfold selectStack
  dsimp only
  repeat' split
  all_goals rfl

theorem runEntries_dryRun (opts : Opts) (hdry : opts.dryRun = true) :
    ∀ (l : List Entry) (inst skip : List String) (fs : FS) (answers : List String),
      (runEntries opts l inst skip fs answers).2.1 = fs := by
  intro l
  induction l with
  | nil => intro inst skip fs answers; rfl
  | cons e rest ih =>
    intro inst skip fs answers
    rw [runEntries]
    simp only [hdry, if_true]
    split
    · exact ih _ _ _ _
    · exact ih _ _ _ _

theorem mergeSettingsWrite_dryRun (stringify : JVal → String) (pid : Nat)
    (writeOk renameOk : Bool) (opts : Opts) (fs : FS) (targetPath : String)
    (srcV tgtV : JVal) (hdry : opts.dryRun = true) :
    (mergeSettingsWrite stringify pid writeOk renameOk opts fs targetPath srcV tgtV).2
      = fs := by
  unfold mergeSettingsWrite
  dsimp only
  split
  · rfl
  · simp only [hdry, if_true]

theorem mergeSettings_dryRun (parse : String → Option JVal) (stringify : JVal → String)
    (pid : Nat) (writeOk renameOk : Bool) (opts : Opts) (answers : List String)
    (fs : FS) (sourcePath targetPath : String) (hdry : opts.dryRun = true) :
    (mergeSettings parse stringify pid writeOk renameOk opts answers fs
        sourcePath targetPath).2.1 = fs := by
  unfold mergeSettings
  repeat' split
  all_goals first
    | rfl
    | exact mergeSettingsWrite_dryRun _ _ _ _ _ _ _ _ _ hdry

theorem updateGitignore_dryRun (opts : Opts) (fs : FS) (targetDir : String)
    (hdry : opts.dryRun = true) : (updateGitignore opts fs targetDir).2 = fs := by
  unfold updateGitignore
  dsimp only
  split
  · rfl
  · split
    · split
      · rfl
      · simp only [hdry, if_true]
    · simp only [hdry, if_true]

theorem stepBind_fs {α β : Type} (r : Outcome α × FS × List String)
    (f : α → FS → List String → Outcome β × FS × List String) (fs0 : FS)
    (hr : r.2.1 = fs0) (hf : ∀ a fs ans, (f a fs ans).2.1 = fs) :
    (stepBind r f).2.1 = fs0 := by
  rcases r with ⟨o, fs1, ans1⟩
  simp only at hr
  subst hr
  cases o with
  | ok a => exact hf a _ _
  | thrown => rfl
  | exited => rfl
  | blocked => rfl

theorem runInstallSteps_dryRun (cfg : Cfg) (opts : Opts) (manifest : List Entry)
    (sourceDir stack : String) (fs : FS) (answers : List String)
    (hdry : opts.dryRun = true) :
    (runInstallSteps cfg opts manifest sourceDir stack fs answers).2.1 = fs := by
  unfold runInstallSteps
  refine stepBind_fs _ _ _ (runEntries_dryRun opts hdry manifest [] [] fs answers) ?_
  intro a fs2 ans2
  refine stepBind_fs _ _ _
    (mergeSettings_dryRun _ _ _ _ _ _ _ _ _ _ hdry) ?_
  intro b fs3 ans3
  refine stepBind_fs _ _ _
    (mergeSettings_dryRun _ _ _ _ _ _ _ _ _ _ hdry) ?_
  intro c fs4 ans4
  rcases hug : updateGitignore opts fs4 opts.target with ⟨o, fs5⟩
  have h5 := updateGitignore_dryRun opts fs4 opts.target hdry
  rw [hug] at h5
  simp only at h5
  subst h5
  cases o <;> rfl

theorem runBody_dryRun (cfg : Cfg) (opts : Opts) (manifest : List Entry)
    (sourceDir : String) (fs : FS) (answers : List String)
    (hdry : opts.dryRun = true) :
    (runBody cfg opts manifest sourceDir fs answers).2.1 = fs := by
  unfold runBody
  refine stepBind_fs _ _ _ (selectStack_fs opts fs sourceDir answers) ?_
  intro st fs1 ans1
  exact runInstallSteps_dryRun cfg opts manifest sourceDir st fs1 ans1 hdry

/-- Claim C5: dry-run leaves the filesystem untouched.  With the dry-run
flag set, the full step sequence (skill installation, both settings
reconciliations, gitignore update) returns the filesystem unchanged on
every outcome, and a whole `main` run changes no path outside the
temporary clone directory (which lies outside the target tree and is
created only by source resolution, not by any of the four steps). -/
theorem dryRun_no_writes (cfg : Cfg) (opts : Opts) (manifest : List Entry)
    (sourceDir stack : String) (fs : FS) (answers : List String)
    (hdry : opts.dryRun = true) :
    (runInstallSteps cfg opts manifest sourceDir stack fs answers).2.1 = fs ∧
    (∀ p, underDir cfg.tmpName p = false →
      getFile (runMain cfg opts manifest fs answers).2 p = getFile fs p) := by
  refine ⟨runInstallSteps_dryRun cfg opts manifest sourceDir stack fs answers hdry, ?_⟩
  intro p hp
  unfold runMain
  by_cases hh : opts.help = true
  · simp [hh]
  · simp only [hh, Bool.false_eq_true, if_false]
    have hconf := resolveSource_confined cfg opts fs p hp
    rcases hrs : resolveSource cfg opts fs with ⟨⟨sd, td⟩ | - | - | -, fs1⟩ <;>
      rw [hrs] at hconf <;> simp only at hconf
    · dsimp only
      have htd := resolveSource_tempDir cfg opts fs sd td (by rw [hrs])
      have hbody := runBody_dryRun cfg opts manifest sd fs1 answers hdry
      rcases hrb : runBody cfg opts manifest sd fs1 answers with ⟨o, fs2, ans2⟩
      rw [hrb] at hbody
      simp only at hbody
      cases o <;> dsimp only
      · rw [hbody]
        rcases htd with rfl | rfl
        · exact hconf
        · rw [getFile_removeTree_not _ hp]
          exact hconf
      · rw [hbody]
        rcases htd with rfl | rfl
        · exact hconf
        · rw [getFile_removeTree_not _ hp]
          exact hconf
      · rw [hbody]
        exact hconf
      · rw [hbody]
        exact hconf
    · exact hconf
    · exact hconf
    · exact hconf

/-- Claim C5 witness: a concrete dry run (existing conflicting skill file,
settings present on both sides, git repository present) changes nothing. -/
theorem dryRun_no_writes_witness :
    (runInstallSteps
        ⟨(fun _ => some (.obj [])), (fun _ => "J"), 1, "sd", "hd", "tmp", [], true, true,
          true, true⟩
        ⟨"tg", none, none, some "typescript", true, false, false⟩
        [⟨"r", "sd/typescript/.claude/skills/r", "tg/.claude/skills/r"⟩]
        "sd" "typescript"
        [("tg/.claude/skills/r", "old"), ("sd/typescript/settings.json", "{}"),
          ("tg/.git", "")]
        []).2.1
      = [("tg/.claude/skills/r", "old"), ("sd/typescript/settings.json", "{}"),
          ("tg/.git", "")] ∧
    getFile (runMain
        ⟨(fun _ => some (.obj [])), (fun _ => "J"), 1, "sd", "hd", "tmp", [], true, true,
          true, true⟩
        ⟨"tg", none, none, some "typescript", true, false, false⟩
        [⟨"r", "sd/typescript/.claude/skills/r", "tg/.claude/skills/r"⟩]
        [("tg/.claude/skills/r", "old"), ("sd/typescript/settings.json", "{}"),
          ("tg/.git", "")]
        []).2 "tg/.claude/skills/r"
      = getFile [("tg/.claude/skills/r", "old"), ("sd/typescript/settings.json", "{}"),
          ("tg/.git", "")] "tg/.claude/skills/r" := by
  constructor
  · exact (dryRun_no_writes _ _ _ _ _ _ _ rfl).1
  · exact (dryRun_no_writes
      ⟨(fun _ => some (.obj [])), (fun _ => "J"), 1, "sd", "hd", "tmp", [], true, true,
        true, true⟩
      ⟨"tg", none, none, some "typescript", true, false, false⟩
      [⟨"r", "sd/typescript/.claude/skills/r", "tg/.claude/skills/r"⟩]
      "sd" "typescript"
      [("tg/.claude/skills/r", "old"), ("sd/typescript/settings.json", "{}"),
        ("tg/.git", "")]
      [] rfl).2 "tg/.claude/skills/r" (by decide)

theorem getFile_isSome_setFile {fs : FS} {p : String} (q c : String)
    (h : (getFile fs p).isSome) : (getFile (setFile fs q c) p).isSome := by
  rw [getFile_setFile]
  by_cases hpq : p = q <;> simp [hpq, h]

/-- The non-interactive, non-dry-run pass over a manifest whose entries
live under one destination root with distinct relative paths and readable
sources: the pass completes normally without touching existing files, and
every entry whose destination already exists lands in the skipped list and
never in the installed list. -/
theorem runEntries_yes (opts : Opts)
    (hdry : opts.dryRun = false) (hyes : opts.yes = true) :
    ∀ (l : List Entry) (inst skip : List String) (fs : FS) (answers : List String),
      (∀ e ∈ l, (getFile fs e.srcPath).isSome) →
      ((l.map Entry.relativePath).Nodup) →
      ∃ instD skipD fs2,
        runEntries opts l inst skip fs answers
          = (.ok (inst ++ instD, skip ++ skipD), fs2, answers) ∧
        (∀ p, (getFile fs p).isSome → getFile fs2 p = getFile fs p) ∧
        (∀ e ∈ l, (getFile fs e.dstPath).isSome →
          e.relativePath ∈ skipD ∧ e.relativePath ∉ instD) ∧
        (∀ r ∈ instD, r ∈ l.map Entry.relativePath) := by
  intro l
  induction l with
  | nil =>
    intro inst skip fs answers _ _
    exact ⟨[], [], fs, by simp [runEntries], fun p _ => rfl, by simp, by simp⟩
  | cons e rest ih =>
    intro inst skip fs answers hsrc hnd
    have hnd' : (rest.map Entry.relativePath).Nodup := hnd.of_cons
    have hhead : e.relativePath ∉ rest.map Entry.relativePath := by
      simpa using (List.nodup_cons.mp hnd).1
    by_cases hex : (getFile fs e.dstPath).isSome
    · -- existing destination: auto-skip
      obtain ⟨instD, skipD, fs2, hrun, hpres, hskip, hinst⟩ :=
        ih inst (skip ++ [e.relativePath]) fs answers
          (fun e' he' => hsrc e' (List.mem_cons_of_mem _ he')) hnd'
      refine ⟨instD, e.relativePath :: skipD, fs2, ?_, hpres, ?_, ?_⟩
      · rw [runEntries]
        simp only [hdry, Bool.false_eq_true, if_false, hex, Bool.not_true, hyes, if_true]
        rw [hrun]
        simp
      · intro e' he' hex'
        rcases List.mem_cons.mp he' with rfl | he'
        · refine ⟨by simp, fun hmem => hhead (hinst _ hmem)⟩
        · obtain ⟨h1, h2⟩ := hskip e' he' hex'
          exact ⟨List.mem_cons_of_mem _ h1, h2⟩
      · intro r hr
        exact List.mem_cons_of_mem _ (hinst r hr)
    · -- fresh destination: copy
      obtain ⟨c, hc⟩ := Option.isSome_iff_exists.mp (hsrc e (by simp))
      have hsrc' : ∀ e' ∈ rest, (getFile (setFile fs e.dstPath c) e'.srcPath).isSome :=
        fun e' he' => getFile_isSome_setFile _ _ (hsrc e' (List.mem_cons_of_mem _ he'))
      obtain ⟨instD, skipD, fs2, hrun, hpres, hskip, hinst⟩ :=
        ih (inst ++ [e.relativePath]) skip (setFile fs e.dstPath c) answers
          hsrc' hnd'
      have hpres' : ∀ p, (getFile fs p).isSome → getFile fs2 p = getFile fs p := by
        intro p hp
        have hpne : p ≠ e.dstPath := by
          intro hpe
          rw [hpe] at hp
          exact absurd hp hex
        have h1 : getFile (setFile fs e.dstPath c) p = getFile fs p := by
          rw [getFile_setFile, if_neg hpne]
        rw [hpres p (by rw [h1]; exact hp), h1]
      refine ⟨e.relativePath :: instD, skipD, fs2, ?_, hpres', ?_, ?_⟩
      · have hex' : (getFile fs e.dstPath).isSome = false := by simpa using hex
        rw [runEntries]
        simp only [hdry, Bool.false_eq_true, if_false, hex', Bool.not_false, if_true, hc]
        rw [hrun]
        simp
      · intro e' he' hex'
        rcases List.mem_cons.mp he' with rfl | he'
        · exact absurd hex' hex
        · have hexset : (getFile (setFile fs e.dstPath c) e'.dstPath).isSome :=
            getFile_isSome_setFile _ _ hex'
          obtain ⟨h1, h2⟩ := hskip e' he' hexset
          refine ⟨h1, ?_⟩
          intro hmem
          rcases List.mem_cons.mp hmem with heq | hmem
          · exact hhead (heq ▸ List.mem_map.mpr ⟨e', he', rfl⟩)
          · exact h2 hmem
      · intro r hr
        rcases List.mem_cons.mp hr with rfl | hr
        · simp
        · exact List.mem_cons_of_mem _ (hinst r hr)

/-- Claim C6: non-interactive conflict resolution is non-destructive.  In
`--yes` mode without dry-run, over a manifest with distinct relative paths
and readable sources, the pass completes normally and every entry whose
destination file already exists keeps its destination bytes unchanged and
is recorded in the skipped list, never in the installed list. -/
theorem installSkills_yes_nondestructive (opts : Opts) (manifest : List Entry)
    (fs : FS) (answers : List String) (e : Entry)
    (hdry : opts.dryRun = false) (hyes : opts.yes = true)
    (hsrc : ∀ e' ∈ manifest, (getFile fs e'.srcPath).isSome)
    (hnd : (manifest.map Entry.relativePath).Nodup)
    (he : e ∈ manifest) (hex : (getFile fs e.dstPath).isSome) :
    ∃ installed skipped fs2,
      installSkills opts manifest fs answers
        = (.ok (installed, skipped), fs2, answers) ∧
      getFile fs2 e.dstPath = getFile fs e.dstPath ∧
      e.relativePath ∈ skipped ∧ e.relativePath ∉ installed := by
  obtain ⟨instD, skipD, fs2, hrun, hpres, hskip, _⟩ :=
    runEntries_yes opts hdry hyes manifest [] [] fs answers hsrc hnd
  refine ⟨instD, skipD, fs2, ?_, hpres _ hex, (hskip e he hex).1, (hskip e he hex).2⟩
  simpa [installSkills] using hrun

/-- Claim C6 witness: one conflicting entry and one fresh entry; the
conflicting destination keeps its bytes and is reported skipped, and the
whole pass evaluates as expected. -/
theorem installSkills_yes_nondestructive_witness :
    (∃ installed skipped fs2,
      installSkills ⟨"tg", none, none, some "typescript", false, true, false⟩
          [⟨"r", "s1", "b/r"⟩, ⟨"q", "s2", "b/q"⟩]
          [("b/r", "old"), ("s1", "new"), ("s2", "fresh")] []
        = (.ok (installed, skipped),  fs2, []) ∧
      getFile fs2 "b/r"
        = getFile [("b/r", "old"), ("s1", "new"), ("s2", "fresh")] "b/r" ∧
      "r" ∈ skipped ∧ "r" ∉ installed) ∧
    installSkills ⟨"tg", none, none, some "typescript", false, true, false⟩
        [⟨"r", "s1", "b/r"⟩, ⟨"q", "s2", "b/q"⟩]
        [("b/r", "old"), ("s1", "new"), ("s2", "fresh")] []
      = (.ok (["q"], ["r"]),
          [("b/r", "old"), ("s1", "new"), ("s2", "fresh"), ("b/q", "fresh")], []) := by
  constructor
  · exact installSkills_yes_nondestructive
      ⟨"tg", none, none, some "typescript", false, true, false⟩
      [⟨"r", "s1", "b/r"⟩, ⟨"q", "s2", "b/q"⟩]
      [("b/r", "old"), ("s1", "new"), ("s2", "fresh")] [] ⟨"r", "s1", "b/r"⟩
      rfl rfl (by decide) (by decide) (by decide) (by decide)
  · decide

theorem resolveSource_outcomes (cfg : Cfg) (opts : Opts) (fs : FS) :
    (resolveSource cfg opts fs).1 = .exited ∨
    ∃ sd td, (resolveSource cfg opts fs).1 = .ok (sd, td) := by
  unfold resolveSource
  rcases opts.source with _ | src
  · by_cases h1 : (AVAILABLE_STACKS.any
        (fun st => (getFile fs (pjoin cfg.scriptDir st)).isSome) && opts.remote.isNone) = true
    · simp only [h1, if_true]
      exact Or.inr ⟨_, _, rfl⟩
    · simp only [h1, Bool.false_eq_true, if_false]
      by_cases h2 : (!cfg.gitOk) = true
      · simp only [h2, if_true]
        exact Or.inl trivial
      · simp only [h2, Bool.false_eq_true, if_false]
        by_cases h3 : (!cfg.cloneOk) = true
        · simp only [h3, if_true]
          exact Or.inl trivial
        · simp only [h3, Bool.false_eq_true, if_false]
          exact Or.inr ⟨_, _, rfl⟩
  · by_cases h : (getFile fs src).isSome
    · simp only [h, if_true]
      exact Or.inr ⟨_, _, rfl⟩
    · simp only [h, Bool.false_eq_true, if_false]
      exact Or.inl trivial

/-- Claim C8 counterexample: with `--yes`, `--remote` and no `--stack`,
the run performs I/O before failing — `main` resolves the source first, so
the temporary directory is created and the clone is written, and only then
does stack selection call `process.exit(1)` (which also bypasses the
cleanup), leaving the clone artifacts on disk at exit. -/
theorem nonInteractive_io_before_failure_counterexample :
    runMain
        ⟨(fun _ => none), (fun _ => ""), 1, "script", "home", "tmpdir", [("g", "y")],
          true, true, true, true⟩
        ⟨"tg", none, some "u", none, false, true, false⟩ [] [] []
      = (.exited, [("tmpdir", ""), ("tmpdir/g", "y")]) ∧
    getFile [("tmpdir", ""), ("tmpdir/g", "y")] (pjoin "tmpdir" "g") = some "y" ∧
    ([("tmpdir", ""), ("tmpdir/g", "y")] : FS) ≠ [] := by
  refine ⟨by decide, by decide, by decide⟩

/-- Claim C8 (amended): with the non-interactive flag set and no stack
flag, the run always terminates via `process.exit` at stack selection, and
no path outside the temporary clone directory is ever written; but when a
remote clone is required, the temporary-directory creation and the clone
happen before the failure (only those writes, all under the temporary
directory, are possible). -/
theorem nonInteractive_missing_stack_fails (cfg : Cfg) (opts : Opts)
    (manifest : List Entry) (fs : FS) (answers : List String)
    (hyes : opts.yes = true) (hstack : opts.stack = none) (hhelp : opts.help = false) :
    (runMain cfg opts manifest fs answers).1 = .exited ∧
    (∀ p, underDir cfg.tmpName p = false →
      getFile (runMain cfg opts manifest fs answers).2 p = getFile fs p) := by
  have houtc := resolveSource_outcomes cfg opts fs
  have hconfAll := resolveSource_confined cfg opts fs
  unfold runMain
  simp only [hhelp, Bool.false_eq_true, if_false]
  rcases hrs : resolveSource cfg opts fs with ⟨⟨sd, td⟩ | - | - | -, fs1⟩
  · dsimp only
    have hsel : selectStack opts fs1 sd answers = (.exited, fs1, answers) := by
      unfold selectStack
      rw [hstack]
      simp [hyes]
    have hrbody : runBody cfg opts manifest sd fs1 answers = (.exited, fs1, answers) := by
      unfold runBody
      rw [hsel]
      rfl
    rw [hrbody]
    refine ⟨rfl, ?_⟩
    intro p hp
    have := hconfAll p hp
    rw [hrs] at this
    exact this
  · rcases houtc with h | ⟨sd, td, h⟩ <;> rw [hrs] at h <;> simp at h
  · refine ⟨rfl, ?_⟩
    intro p hp
    have := hconfAll p hp
    rw [hrs] at this
    exact this
  · rcases houtc with h | ⟨sd, td, h⟩ <;> rw [hrs] at h <;> simp at h

/-- Claim C8 witness: the amended statement at a local-source run — the
run exits and the filesystem is untouched. -/
theorem nonInteractive_missing_stack_fails_witness :
    (runMain ⟨(fun _ => none), (fun _ => ""), 1, "sd", "hd", "tm", [], true, true,
        true, true⟩
      ⟨"tg", none, none, none, false, true, false⟩ [] [("sd/typescript", "")] []).1
      = .exited ∧
    getFile (runMain ⟨(fun _ => none), (fun _ => ""), 1, "sd", "hd", "tm", [], true,
        true, true, true⟩
      ⟨"tg", none, none, none, false, true, false⟩ [] [("sd/typescript", "")] []).2
        "sd/typescript"
      = getFile [("sd/typescript", "")] "sd/typescript" := by
  constructor
  · exact (nonInteractive_missing_stack_fails _ _ _ _ _ rfl rfl rfl).1
  · exact (nonInteractive_missing_stack_fails
      ⟨(fun _ => none), (fun _ => ""), 1, "sd", "hd", "tm", [], true, true, true, true⟩
      ⟨"tg", none, none, none, false, true, false⟩ [] [("sd/typescript", "")] []
      rfl rfl rfl).2 "sd/typescript" (by decide)

/-- Claim C9 counterexample: the temporary clone directory is not removed
on every exit path.  When a later step terminates the process directly
(`process.exit(1)` — here stack selection with `--stack typescript` whose
directory is missing from the clone), the `finally` cleanup never runs and
the clone artifacts remain on disk at exit. -/
theorem tempDir_cleanup_counterexample :
    runMain
        ⟨(fun _ => none), (fun _ => ""), 1, "sd", "hd", "td", [("f", "x")],
          true, true, true, true⟩
        ⟨"tg", none, some "u", some "typescript", false, true, false⟩ [] [] []
      = (.exited, [("td", ""), ("td/f", "x")]) ∧
    getFile [("td", ""), ("td/f", "x")] (pjoin "td" "f") = some "x" := by
  refine ⟨by decide, by decide⟩

/-- Claim C9 (amended): on the clone path, the temporary directory is
removed on clone failure, on successful completion, and on any thrown
error from a later step — every exit path other than a direct
`process.exit` inside a later step. -/
theorem tempDir_cleanup (cfg : Cfg) (opts : Opts) (manifest : List Entry)
    (fs : FS) (answers : List String)
    (hsrc : opts.source = none) (hhelp : opts.help = false)
    (hlocal : (AVAILABLE_STACKS.any
        (fun st => (getFile fs (pjoin cfg.scriptDir st)).isSome)
        && opts.remote.isNone) = false)
    (hgit : cfg.gitOk = true) :
    (cfg.cloneOk = false →
      (runMain cfg opts manifest fs answers).1 = .exited ∧
      ∀ p, underDir cfg.tmpName p = true →
        getFile (runMain cfg opts manifest fs answers).2 p = none) ∧
    (((runMain cfg opts manifest fs answers).1 = .ok () ∨
      (runMain cfg opts manifest fs answers).1 = .thrown) →
      ∀ p, underDir cfg.tmpName p = true →
        getFile (runMain cfg opts manifest fs answers).2 p = none) := by
  by_cases hclone : cfg.cloneOk = true
  · have hrs : resolveSource cfg opts fs
        = (.ok (cfg.tmpName, some cfg.tmpName),
            cfg.cloneFiles.foldl (fun a e => setFile a (pjoin cfg.tmpName e.1) e.2)
              (setFile fs cfg.tmpName "")) := by
      unfold resolveSource
      rw [hsrc]
      simp [hlocal, hgit, hclone]
    rcases hrb : runBody cfg opts manifest cfg.tmpName
        (cfg.cloneFiles.foldl (fun a e => setFile a (pjoin cfg.tmpName e.1) e.2)
          (setFile fs cfg.tmpName "")) answers with ⟨o, fs3, ans3⟩
    cases o with
    | ok a =>
      have hmain : runMain cfg opts manifest fs answers
          = (.ok (), removeTree fs3 cfg.tmpName) := by
        unfold runMain
        simp only [hhelp, Bool.false_eq_true, if_false]
        rw [hrs]
        dsimp only
        rw [hrb]
      rw [hmain]
      constructor
      · intro hcf
        rw [hcf] at hclone
        exact Bool.noConfusion hclone
      · intro _ p hp
        exact getFile_removeTree_under _ hp
    | thrown =>
      have hmain : runMain cfg opts manifest fs answers
          = (.thrown, removeTree fs3 cfg.tmpName) := by
        unfold runMain
        simp only [hhelp, Bool.false_eq_true, if_false]
        rw [hrs]
        dsimp only
        rw [hrb]
      rw [hmain]
      constructor
      · intro hcf
        rw [hcf] at hclone
        exact Bool.noConfusion hclone
      · intro _ p hp
        exact getFile_removeTree_under _ hp
    | exited =>
      have hmain : runMain cfg opts manifest fs answers = (.exited, fs3) := by
        unfold runMain
        simp only [hhelp, Bool.false_eq_true, if_false]
        rw [hrs]
        dsimp only
        rw [hrb]
      rw [hmain]
      constructor
      · intro hcf
        rw [hcf] at hclone
        exact Bool.noConfusion hclone
      · intro houtc p hp
        rcases houtc with h | h <;> exact Outcome.noConfusion h
    | blocked =>
      have hmain : runMain cfg opts manifest fs answers = (.blocked, fs3) := by
        unfold runMain
        simp only [hhelp, Bool.false_eq_true, if_false]
        rw [hrs]
        dsimp only
        rw [hrb]
      rw [hmain]
      constructor
      · intro hcf
        rw [hcf] at hclone
        exact Bool.noConfusion hclone
      · intro houtc p hp
        rcases houtc with h | h <;> exact Outcome.noConfusion h
  · have hcl : cfg.cloneOk = false := by
      revert hclone
      cases cfg.cloneOk <;> simp
    have hrs : resolveSource cfg opts fs
        = (.exited, removeTree (setFile fs cfg.tmpName "") cfg.tmpName) := by
      unfold resolveSource
      rw [hsrc]
      simp [hlocal, hgit, hcl]
    have hmain : runMain cfg opts manifest fs answers
        = (.exited, removeTree (setFile fs cfg.tmpName "") cfg.tmpName) := by
      unfold runMain
      simp only [hhelp, Bool.false_eq_true, if_false]
      rw [hrs]
    rw [hmain]
    refine ⟨fun _ => ⟨rfl, fun p hp => getFile_removeTree_under _ hp⟩, ?_⟩
    intro _ p hp
    exact getFile_removeTree_under _ hp

/-- Claim C9 witness: a successful remote run — after completion no file
under the temporary clone directory remains. -/
theorem tempDir_cleanup_witness :
    getFile (runMain
        ⟨(fun _ => none), (fun _ => ""), 1, "sd", "hd", "td", [("typescript", "x")],
          true, true, true, true⟩
        ⟨"tg", none, some "u", some "typescript", false, true, false⟩ [] [] []).2
      "td/typescript" = none :=
  (tempDir_cleanup
      ⟨(fun _ => none), (fun _ => ""), 1, "sd", "hd", "td", [("typescript", "x")],
        true, true, true, true⟩
      ⟨"tg", none, some "u", some "typescript", false, true, false⟩ [] [] []
      rfl rfl (by decide) rfl).2 (Or.inl (by decide)) "td/typescript" (by decide)
